import Mathlib

set_option maxRecDepth 8000

namespace Spec2Proof

/-! Shallow embedding of the epicenter virtual file system core:
the files table (file-table.ts), the derived path index
(file-system-index source), the reference-counted content document pool
(content-doc-pool source), the text/rich-text converter
(convert-on-switch.ts) and the YjsFileSystem facade (yjs-file-system
source).  The replicated table substrate and the Yjs document substrate
are external collaborators (spec section 6) and are modelled as explicit
state.  Table observers are modelled as synchronous: every table set or
update is immediately followed by an index rebuild, as the spec
(section 4.1, "triggered synchronously whenever the row-table
collaborator reports a change") and the index test file assert; a table
write performed inside a rebuild has its own observer callback delivered
after the running rebuild completes (Yjs queues transactions created
during a callback), which is modelled by iterating whole rebuild passes
to a fixpoint. -/

/-! Character-list string helpers.  The JS string operations the source
uses (split, startsWith, endsWith, join, byte length) are modelled over
the character list of the string, so that every definition evaluates
inside the kernel. -/

/-- startsWith over the character list. -/
def strStartsWith (s t : String) : Bool :=
  s.data.take t.data.length == t.data

/-- endsWith over the character list. -/
def strEndsWith (s t : String) : Bool :=
  s.data.drop (s.data.length - t.data.length) == t.data &&
    t.data.length ≤ s.data.length

/-- Drop the final character (the replace of a trailing slash). -/
def strDropLast (s : String) : String :=
  (s.data.dropLast).asString

/-- JS String.split with a one-character separator: "" yields [""], a
leading separator yields a leading "". -/
def splitOnCharGo (c : Char) : List Char → List Char → List String
  | [], acc => [acc.reverse.asString]
  | x :: xs, acc =>
    if x == c then acc.reverse.asString :: splitOnCharGo c xs []
    else splitOnCharGo c xs (x :: acc)

def splitOnChar (c : Char) (s : String) : List String :=
  splitOnCharGo c s.data []

/-- JS Array.join with a string separator. -/
def joinWith (sep : String) : List String → String
  | [] => ""
  | x :: rest => rest.foldl (fun acc y => acc ++ sep ++ y) x

/-- Split a front-matter line at the first ": " occurrence. -/
def splitFirstColonSpace : List Char → Option (List Char × List Char)
  | [] => none
  | ':' :: ' ' :: rest => some ([], rest)
  | x :: rest =>
    (splitFirstColonSpace rest).map (fun p => (x :: p.1, p.2))

/-- UTF-8 byte count of one character (TextEncoder). -/
def charUtf8Size (c : Char) : Nat :=
  if c.toNat < 0x80 then 1
  else if c.toNat < 0x800 then 2
  else if c.toNat < 0x10000 then 3
  else 4

/-- UTF-8 byte length of a string (TextEncoder().encode(s).byteLength). -/
def utf8Size (s : String) : Nat :=
  s.data.foldl (fun n c => n + charUtf8Size c) 0

/-- File/folder discriminator of the files table schema (file-table.ts). -/
inductive FType where
  | file
  | folder
deriving DecidableEq

/-- One row of the files table (file-table.ts): id, name, parentId
(none = root), type (named ftype since type is reserved), size in bytes,
createdAt, updatedAt, trashedAt (none = live, some = soft-deleted
tombstone). -/
structure FileRow where
  id : String
  name : String
  parentId : Option String
  ftype : FType
  size : Nat
  createdAt : Nat
  updatedAt : Nat
  trashedAt : Option Nat
deriving DecidableEq

/-- Modelled from the spec: the row-table collaborator (spec section 6)
is external to src/.  The table is its rows in insertion order;
getAllValid returns them all (trashed rows included, they are valid
rows). -/
abbrev Table := List FileRow

/-- Modelled from the spec: get(id) of the row-table collaborator;
none is the missing status. -/
def tableGet (t : Table) (id : String) : Option FileRow :=
  t.find? (fun r => r.id == id)

/-- A patch as passed to the row-table update(id, patch): each field is
some when the patch carries it. -/
structure Patch where
  name : Option String := none
  parentId : Option (Option String) := none
  size : Option Nat := none
  updatedAt : Option Nat := none
  trashedAt : Option (Option Nat) := none

def applyPatch (r : FileRow) (p : Patch) : FileRow :=
  { r with
    name := p.name.getD r.name
    parentId := p.parentId.getD r.parentId
    size := p.size.getD r.size
    updatedAt := p.updatedAt.getD r.updatedAt
    trashedAt := p.trashedAt.getD r.trashedAt }

/-- Modelled from the spec: update(id, patch) of the row-table
collaborator patches the row with that id and is a no-op when the id is
absent. -/
def tableUpdate (t : Table) (id : String) (p : Patch) : Table :=
  t.map (fun r => if r.id == id then applyPatch r p else r)

/-- Modelled from the spec: set(row) of the row-table collaborator
replaces the row with the same id, else appends. -/
def tableSet (t : Table) (row : FileRow) : Table :=
  if t.any (fun r => r.id == row.id) then
    t.map (fun r => if r.id == row.id then row else r)
  else t ++ [row]

/-- String-keyed association list mirroring a JS Map: lookup by key,
set replaces in place (keeping insertion order) or appends, delete
removes, iteration is list order (JS Map iterates insertion order). -/
abbrev AList (α : Type) := List (String × α)

def aget {α : Type} (m : AList α) (k : String) : Option α :=
  (m.find? (fun p => p.1 == k)).map (fun p => p.2)

def aset {α : Type} : AList α → String → α → AList α
  | [], k, v => [(k, v)]
  | p :: ps, k, v => if p.1 == k then (k, v) :: ps else p :: aset ps k v

def adel {α : Type} (m : AList α) (k : String) : AList α :=
  m.filter (fun p => p.1 != k)

/-- Modelled from the spec: the synthetic root id (types.ts is not under
src/; spec section 3: exactly one synthetic root with id ROOT, path /,
never stored as a row). -/
def ROOT_ID : String := "ROOT"

/-- MAX_DEPTH = 50 (file-system-index source, line 573). -/
def MAX_DEPTH : Nat := 50

/-- The three derived maps of the path index (plaintext is carried in
the facade state, since rebuilds never clear it). -/
structure Index where
  pathToId : AList String
  idToPath : AList String
  childrenOf : AList (List String)
deriving DecidableEq

/-- Loop of computePath (file-system-index source, lines 648-660): walk
the parentId chain, prepending display names, until the id is null or
the remaining budget (MAX_DEPTH - depth, carried as structural fuel next
to the visit counter) runs out; a missing row aborts with none;
otherwise the final (depth, parts) is returned for the post-loop depth
check. -/
def computePathGo (t : Table) (dn : AList String) :
    Nat → Option String → Nat → List String → Option (Nat × List String)
  | _, none, depth, parts => some (depth, parts)
  | 0, some _, depth, parts => some (depth, parts)
  | fuel + 1, some cid, depth, parts =>
    match tableGet t cid with
    | none => none
    | some row =>
      computePathGo t dn fuel row.parentId (depth + 1)
        (((aget dn cid).getD row.name) :: parts)

/-- computePath (file-system-index source, lines 642-664): the walk
starts with budget MAX_DEPTH and depth 0 (so the loop guard
depth < MAX_DEPTH is exactly the budget being positive); none when a
chain row is missing or when the walk used MAX_DEPTH visits (the source
checks depth >= MAX_DEPTH after the loop, so a chain of exactly 50 nodes
is excluded even though it reached the root). -/
def computePath (id : String) (t : Table) (dn : AList String) : Option String :=
  match computePathGo t dn MAX_DEPTH (some id) 0 [] with
  | none => none
  | some (depth, parts) =>
    if MAX_DEPTH ≤ depth then none
    else some ("/" ++ joinWith "/" parts)

/-- Index of the last dot of a name, used to place the disambiguation
suffix before the extension. -/
def lastDotIdx (cs : List Char) : Option Nat :=
  match cs.reverse.findIdx? (fun c => c == '.') with
  | none => none
  | some j => some (cs.length - 1 - j)

/-- Split a name into stem and extension at the last dot; a dot at
position 0 (hidden files) or no dot yields an empty extension. -/
def splitExtName (name : String) : String × String :=
  let cs := name.toList
  match lastDotIdx cs with
  | some i =>
    if 0 < i then ((cs.take i).asString, (cs.drop i).asString)
    else (name, "")
  | none => (name, "")

/-- The suffix pattern of spec section 4.1 step 5: name (k).ext. -/
def suffixedName (name : String) (k : Nat) : String :=
  let se := splitExtName name
  se.1 ++ " (" ++ toString k ++ ")" ++ se.2

/-- Stable insertion into a list sorted by createdAt ascending. -/
def insertByCreatedAt (r : FileRow) : List FileRow → List FileRow
  | [] => [r]
  | x :: xs =>
    if x.createdAt < r.createdAt then x :: insertByCreatedAt r xs
    else r :: x :: xs

/-- Stable sort by createdAt ascending. -/
def sortByCreatedAt : List FileRow → List FileRow
  | [] => []
  | r :: rs => insertByCreatedAt r (sortByCreatedAt rs)

/-- Walk the createdAt-sorted children keeping a per-name occurrence
count: the first occurrence of a name keeps it bare, the k-th later one
becomes name (k).ext. -/
def disambiguateGo : List FileRow → AList Nat → AList String → AList String
  | [], _, acc => acc
  | r :: rs, counts, acc =>
    match aget counts r.name with
    | none => disambiguateGo rs (aset counts r.name 1) (aset acc r.id r.name)
    | some k =>
      disambiguateGo rs (aset counts r.name (k + 1))
        (aset acc r.id (suffixedName r.name k))

/-- Modelled from the spec: disambiguateNames lives in validation.ts,
which is not under src/ (only its callers are).  Spec section 4.1 step
5: order the children of one parent by createdAt ascending; the earliest
keeps its bare name; later rows with an already-used name receive the
suffix pattern name (1).ext, name (2).ext, ... deterministically in
creation order.  Returns id to display name. -/
def disambiguateNames (children : List FileRow) : AList String :=
  disambiguateGo (sortByCreatedAt children) [] []

/-- Display-name pass of buildPaths (file-system-index source, lines
673-688): per parent bucket, collect the valid active child rows in
bucket order and merge their disambiguated names. -/
def allDisplayNames (t : Table) (childrenOf : AList (List String)) : AList String :=
  childrenOf.foldl
    (fun acc bucket =>
      let childRows :=
        (bucket.2.filterMap (tableGet t)).filter (fun r => r.trashedAt.isNone)
      (disambiguateNames childRows).foldl (fun a p => aset a p.1 p.2) acc)
    []

/-- One iteration of buildPaths' path loop (file-system-index source,
lines 692-699): record path to id and id to path when computePath
succeeds, else skip the row. -/
def buildPathStep (t : Table) (dn : AList String)
    (maps : AList String × AList String) (row : FileRow) :
    AList String × AList String :=
  match computePath row.id t dn with
  | none => maps
  | some p => (aset maps.1 p row.id, aset maps.2 row.id p)

/-- buildPaths (file-system-index source, lines 666-700): for every
active row whose computePath succeeds, record path to id and id to
path. -/
def buildPaths (t : Table) (childrenOf : AList (List String))
    (pathToId idToPath : AList String) : AList String × AList String :=
  (t.filter (fun r => r.trashedAt.isNone)).foldl
    (buildPathStep t (allDisplayNames t childrenOf)) (pathToId, idToPath)

/-- One step of the latest-updatedAt scan of detectCycle
(file-system-index source, lines 739-745): a valid row strictly above
the running time replaces the candidate; missing ids are skipped. -/
def pickStep (t : Table) (acc : String × Nat) (cid : String) : String × Nat :=
  match tableGet t cid with
  | some row => if acc.2 < row.updatedAt then (cid, row.updatedAt) else acc
  | none => acc

/-- The latest-updatedAt scan of detectCycle (file-system-index source,
lines 737-745): latestId starts at cycleIds[0], latestTime at 0, so the
first maximum wins. -/
def pickLatest (cycleIds : List String) (t : Table) : String :=
  (cycleIds.foldl (pickStep t) (cycleIds.headD "", 0)).1

/-- JS path.slice(path.indexOf(cur)): indexOf yields -1 when absent and
slice(-1) keeps only the last element (or nothing when path is empty). -/
def sliceFrom (path : List String) (cur : String) : List String :=
  match path.findIdx? (fun i => i == cur) with
  | some i => path.drop i
  | none => path.drop (path.length - 1)

/-- detectCycle (file-system-index source, lines 719-765), as a fuelled
walk.  Returns (table, visited, inStack, repaired): the fourth component
observationally records the cycleIds slice when the in-stack branch
fired; in that branch the source reparents pickLatest's row and returns
WITHOUT the cleanup loop, so visited is not extended and the walked path
stays on the stack.  All other exits run the cleanup (mark the path
visited, remove it from the stack). -/
def detectCycleGo (t : Table) :
    Nat → Option String → List String → List String → List String →
    Table × List String × List String × Option (List String)
  | _, none, visited, inStack, path =>
    (t, visited ++ path, inStack.filter (fun i => !path.contains i), none)
  | 0, some _, visited, inStack, path =>
    (t, visited ++ path, inStack.filter (fun i => !path.contains i), none)
  | fuel + 1, some c, visited, inStack, path =>
    if visited.contains c then
      (t, visited ++ path, inStack.filter (fun i => !path.contains i), none)
    else if inStack.contains c then
      let cycleIds := sliceFrom path c
      let latestId := pickLatest cycleIds t
      (tableUpdate t latestId { parentId := some none }, visited, inStack, some cycleIds)
    else
      let inStack1 := inStack ++ [c]
      let path1 := path ++ [c]
      match tableGet t c with
      | none =>
        (t, visited ++ path1, inStack1.filter (fun i => !path1.contains i), none)
      | some row => detectCycleGo t fuel row.parentId visited inStack1 path1

/-- One iteration of fixCircularReferences' loop (file-system-index
source, lines 713-716): skip visited rows, else walk from the row with
the shared visited and inStack sets. -/
def fixCircStep (acc : Table × List String × List String) (row : FileRow) :
    Table × List String × List String :=
  if acc.2.1.contains row.id then acc
  else
    let r := detectCycleGo acc.1 (acc.1.length + 1) (some row.id) acc.2.1 acc.2.2 []
    (r.1, r.2.1, r.2.2.1)

/-- fixCircularReferences (file-system-index source, lines 706-717):
walk every not-yet-visited active row, threading the shared visited and
inStack sets and the table through the walks. -/
def fixCircularReferences (t : Table) (activeRows : List FileRow) : Table :=
  (activeRows.foldl fixCircStep (t, ([] : List String), ([] : List String))).1

/-- fixOrphans (file-system-index source, lines 771-795): every active
row whose parentId is not among the active ids is reparented to root,
and the childrenOf buckets are patched accordingly.  The activeIds set
and the iterated row objects are the pre-repair snapshot, as in the
source. -/
def fixOrphanStep (activeIds : List String)
    (acc : Table × AList (List String)) (row : FileRow) :
    Table × AList (List String) :=
  match row.parentId with
  | none => acc
  | some pid =>
    if activeIds.contains pid then acc
    else
      let t1 := tableUpdate acc.1 row.id { parentId := some none }
      let oldChildren := (aget acc.2 pid).getD []
      let co1 := aset acc.2 pid (oldChildren.filter (fun i => i != row.id))
      let rootChildren := (aget co1 ROOT_ID).getD []
      (t1, aset co1 ROOT_ID (rootChildren ++ [row.id]))

def fixOrphans (t : Table) (activeRows : List FileRow)
    (childrenOf : AList (List String)) : Table × AList (List String) :=
  activeRows.foldl (fixOrphanStep (activeRows.map (fun r => r.id)))
    (t, childrenOf)

/-- One rebuild pass (file-system-index source, lines 593-622): seed the
root entry, partition the active rows, build childrenOf, repair cycles,
repair orphans, then build the path maps from the patched table and
buckets.  Table writes are applied immediately; the further rebuilds
they schedule are modelled by rebuildFix. -/
def rebuildPass (t : Table) : Table × Index :=
  let pathToId0 : AList String := [("/", ROOT_ID)]
  let idToPath0 : AList String := [(ROOT_ID, "/")]
  let activeRows := t.filter (fun r => r.trashedAt.isNone)
  let childrenOf0 :=
    activeRows.foldl
      (fun co row =>
        let parentKey := row.parentId.getD ROOT_ID
        aset co parentKey ((aget co parentKey).getD [] ++ [row.id]))
      ([] : AList (List String))
  let t1 := fixCircularReferences t activeRows
  let tco := fixOrphans t1 activeRows childrenOf0
  let maps := buildPaths tco.1 tco.2 pathToId0 idToPath0
  (tco.1, { pathToId := maps.1, idToPath := maps.2, childrenOf := tco.2 })

/-- Iterate rebuild passes until the table is unchanged (each repair
writes to the table, synchronously scheduling another full rebuild; the
final pass runs on the repaired table and performs no writes).  Each
changing pass strictly lowers the number of non-null parentIds, so
length t + 1 passes suffice. -/
def rebuildFix : Nat → Table → Table × Index
  | 0, t => rebuildPass t
  | fuel + 1, t =>
    let r := rebuildPass t
    if r.1 = t then r else rebuildFix fuel r.1

/-- The childrenOf accumulator of rebuild (file-system-index source,
lines 601-607), named so the rebuild of a repair-free table can be
stated: each active row is appended to its parent's bucket (null parent
means the root bucket). -/
def childrenOf0 (t : Table) : AList (List String) :=
  (t.filter (fun r => r.trashedAt.isNone)).foldl
    (fun co row =>
      let parentKey := row.parentId.getD ROOT_ID
      aset co parentKey ((aget co parentKey).getD [] ++ [row.id]))
    []

/-- The parentId chain from an id up to the root, as the list of visited
ids; none when a row is missing or the fuel runs out (so a cycle yields
none once the fuel exceeds the table size). -/
def chainList (t : Table) : Nat → Option String → Option (List String)
  | _, none => some []
  | 0, some _ => none
  | fuel + 1, some id =>
    match tableGet t id with
    | none => none
    | some r => (chainList t fuel r.parentId).map (fun l => id :: l)

/-! Content documents, converter and pool. -/

/-- Modelled from the spec: the Yjs content document substrate is
external.  text models Y.Text('text') as its string; rich models
Y.XmlFragment('richtext') through the markdown string it renders to (the
external markdown codec of spec section 6 is modelled as the identity
round trip, which spec section 8 allows up to whitespace normalization);
fm models Y.Map('frontmatter') as a record with raw string values.  A
container has length 0 precisely when its model value is empty. -/
structure YDoc where
  text : String
  rich : String
  fm : AList String
deriving DecidableEq

def YDoc.empty : YDoc := { text := "", rich := "", fm := [] }

/-- Modelled from the spec: one key: value front-matter line
(markdown-helpers.ts is not under src/); lines without a separator are
skipped, values stay raw strings. -/
def parseFmLine (l : String) : Option (String × String) :=
  match splitFirstColonSpace l.data with
  | some kv => some (kv.1.asString, kv.2.asString)
  | none => none

/-- Modelled from the spec: parseFrontmatter (markdown-helpers.ts is not
under src/).  Front matter is recognized only as a block delimited by a
leading --- line at the very start and a matching --- line (spec
sections 4.3 and 6); an absent delimiter yields an empty record with the
whole text as body. -/
def parseFrontmatter (s : String) : AList String × String :=
  match splitOnChar '\x0a' s with
  | "---" :: rest =>
    match rest.findIdx? (fun l => l == "---") with
    | some j =>
      let fmLines := rest.take j
      let body := joinWith "\n" (rest.drop (j + 1))
      (fmLines.foldl
        (fun m l =>
          match parseFmLine l with
          | some kv => aset m kv.1 kv.2
          | none => m) [], body)
    | none => ([], s)
  | _ => ([], s)

/-- Modelled from the spec: serializeMarkdownWithFrontmatter
(markdown-helpers.ts is not under src/): the block is omitted entirely
when the record is empty (spec sections 4.2 and 6.3). -/
def serializeMarkdownWithFrontmatter (fm : AList String) (body : String) : String :=
  if fm.isEmpty then body
  else
    "---\n" ++ joinWith "\n" (fm.map (fun p => p.1 ++ ": " ++ p.2)) ++
      "\n---\n" ++ body

/-- Modelled from the spec: yMapToRecord reads the front-matter map into
a record. -/
def yMapToRecord (fm : AList String) : AList String := fm

/-- Modelled from the spec: serializeXmlFragmentToMarkdown renders the
rich-text structure to markdown (identity on the model). -/
def serializeXmlFragmentToMarkdown (rich : String) : String := rich

/-- Modelled from the spec: updateYMapFromRecord replaces the map
contents with the record (sets keys, deletes missing ones). -/
def updateYMapFromRecord (record : AList String) : AList String := record

/-- Modelled from the spec: updateYXmlFragmentFromString re-renders the
fragment from the markdown string. -/
def updateYXmlFragmentFromString (s : String) : String := s

/-- getExtensionCategory (convert-on-switch.ts, lines 14-16). -/
inductive ExtensionCategory where
  | text
  | richtext
deriving DecidableEq

def getExtensionCategory (fileName : String) : ExtensionCategory :=
  if strEndsWith fileName ".md" then .richtext else .text

/-- convertContentType (convert-on-switch.ts, lines 25-50); from/to are
named fromCat/toCat since from is reserved. -/
def convertContentType (ydoc : YDoc) (fromCat toCat : ExtensionCategory) : YDoc :=
  if fromCat = toCat then ydoc
  else
    match fromCat with
    | .text =>
      let parsed := parseFrontmatter ydoc.text
      { ydoc with
        fm := updateYMapFromRecord parsed.1
        rich := updateYXmlFragmentFromString parsed.2 }
    | .richtext =>
      let fm := yMapToRecord ydoc.fm
      let body := serializeXmlFragmentToMarkdown ydoc.rich
      { ydoc with text := serializeMarkdownWithFrontmatter fm body }

/-- healContentType (convert-on-switch.ts, lines 59-77): convert only
when the container expected by the extension is empty while the other
one holds content. -/
def healContentType (ydoc : YDoc) (fileName : String) : YDoc :=
  match getExtensionCategory fileName with
  | .richtext =>
    if ydoc.rich.length = 0 ∧ 0 < ydoc.text.length then
      convertContentType ydoc .text .richtext
    else ydoc
  | .text =>
    if ydoc.text.length = 0 ∧ 0 < ydoc.rich.length then
      convertContentType ydoc .richtext .text
    else ydoc

/-- A document handle (content-doc-pool source, openDocument lines
21-41): the variant chosen from the file name at open, plus the file id;
the document itself lives in the pool entry the handle points into. -/
structure DocumentHandle where
  htype : ExtensionCategory
  fileId : String
deriving DecidableEq

def openDocument (fileId fileName : String) : DocumentHandle :=
  if strEndsWith fileName ".md" then { htype := .richtext, fileId := fileId }
  else { htype := .text, fileId := fileId }

/-- A pool entry (content-doc-pool source, lines 10-14): handle,
refcount, provider presence; the Y.Doc state is carried here.  The
facade used by the tests passes no connectProvider, so provider stays
false. -/
structure PoolEntry where
  handle : DocumentHandle
  ydoc : YDoc
  refcount : Nat
  provider : Bool
deriving DecidableEq

/-- documentHandleToString (content-doc-pool source, lines 44-51). -/
def documentHandleToString (h : DocumentHandle) (d : YDoc) : String :=
  match h.htype with
  | .text => d.text
  | .richtext =>
    serializeMarkdownWithFrontmatter (yMapToRecord d.fm)
      (serializeXmlFragmentToMarkdown d.rich)

/-- acquire (content-doc-pool source, lines 63-76): a cache hit bumps
the refcount and returns the existing handle; a miss creates a fresh
empty Y.Doc, runs healContentType, opens the handle from the file name
and caches the entry with refcount 1. -/
def acquire (pool : AList PoolEntry) (fileId fileName : String) :
    DocumentHandle × AList PoolEntry :=
  match aget pool fileId with
  | some e => (e.handle, aset pool fileId { e with refcount := e.refcount + 1 })
  | none =>
    let ydoc1 := healContentType YDoc.empty fileName
    let handle := openDocument fileId fileName
    (handle,
      aset pool fileId
        { handle := handle, ydoc := ydoc1, refcount := 1, provider := false })

/-- release (content-doc-pool source, lines 78-87): decrement; at zero
or below, destroy the provider and the document and evict the entry
(modelled by deleting the entry; the document state is dropped with
it). -/
def release (pool : AList PoolEntry) (fileId : String) : AList PoolEntry :=
  match aget pool fileId with
  | none => pool
  | some e =>
    if e.refcount ≤ 1 then adel pool fileId
    else aset pool fileId { e with refcount := e.refcount - 1 }

/-- peek (content-doc-pool source, lines 89-91). -/
def peek (pool : AList PoolEntry) (fileId : String) : Option DocumentHandle :=
  (aget pool fileId).map (fun e => e.handle)

/-- loadAndCache (content-doc-pool source, lines 93-98): acquire,
serialize through the handle, release. -/
def loadAndCache (pool : AList PoolEntry) (fileId fileName : String) :
    String × AList PoolEntry :=
  let hp := acquire pool fileId fileName
  let text :=
    match aget hp.2 fileId with
    | some e => documentHandleToString hp.1 e.ydoc
    | none => ""
  (text, release hp.2 fileId)

/-! The YjsFileSystem facade. -/

/-- The error taxonomy (spec section 7); EINVALNAME and EEXIST model the
name-validation and local-uniqueness errors of validation.ts, which is
not under src/. -/
inductive FsErr where
  | ENOENT (p : String)
  | EISDIR (p : String)
  | ENOTDIR (p : String)
  | ENOTEMPTY (p : String)
  | ENOSYS (p : String)
  | EINVALNAME (p : String)
  | EEXIST (p : String)
deriving DecidableEq

instance {ε α : Type} [DecidableEq ε] [DecidableEq α] :
    DecidableEq (Except ε α) := fun a b =>
  match a, b with
  | .ok x, .ok y =>
    if h : x = y then isTrue (by rw [h])
    else isFalse (fun hh => h (Except.ok.inj hh))
  | .error x, .error y =>
    if h : x = y then isTrue (by rw [h])
    else isFalse (fun hh => h (Except.error.inj hh))
  | .ok _, .error _ => isFalse (fun hh => Except.noConfusion hh)
  | .error _, .ok _ => isFalse (fun hh => Except.noConfusion hh)

/-- posixResolve (yjs-file-system source, lines 33-51). -/
def posixResolve (base path : String) : String :=
  let resolved :=
    if strStartsWith path "/" then path
    else (if strEndsWith base "/" then strDropLast base else base) ++ "/" ++ path
  let stack :=
    (splitOnChar '/' resolved).foldl
      (fun st part =>
        if part = "" ∨ part = "." then st
        else if part = ".." then st.dropLast
        else st ++ [part])
      ([] : List String)
  "/" ++ joinWith "/" stack

/-- The whole mutable state the facade touches: the files table, the
derived index, the plaintext cache, the content doc pool and the guid
counter (generateGuid modelled as a deterministic fresh name).  The
facade is constructed with cwd "/" as in the tests. -/
structure FsState where
  table : Table
  index : Index
  plaintext : AList String
  pool : AList PoolEntry
  nextGuid : Nat
deriving DecidableEq

/-- Apply a new table value and run the synchronous observer: the index
is rebuilt, iterating to the repair fixpoint; the plaintext cache is
never cleared by rebuilds. -/
def applyTable (st : FsState) (t : Table) : FsState :=
  let r := rebuildFix (t.length + 1) t
  { st with table := r.1, index := r.2 }

/-- Build the state the facade starts from: the index is seeded by the
constructor-time rebuild; caches and pool start empty. -/
def initState (t : Table) : FsState :=
  applyTable
    { table := [], index := { pathToId := [], idToPath := [], childrenOf := [] },
      plaintext := [], pool := [], nextGuid := 0 } t

/-- resolveId (yjs-file-system source, lines 423-428). -/
def resolveId (st : FsState) (path : String) : Except FsErr String :=
  if path = "/" then .ok ROOT_ID
  else
    match aget st.index.pathToId path with
    | some id => .ok id
    | none => .error (.ENOENT path)

/-- getRow (yjs-file-system source, lines 430-434). -/
def getRowE (st : FsState) (id path : String) : Except FsErr FileRow :=
  match tableGet st.table id with
  | some r => .ok r
  | none => .error (.ENOENT path)

/-- getActiveChildren (yjs-file-system source, lines 442-451). -/
def getActiveChildren (t : Table) (childIds : List String) : List FileRow :=
  (childIds.filterMap (tableGet t)).filter (fun r => r.trashedAt.isNone)

/-- exists (yjs-file-system source, lines 121-124); named fsExists since
exists is reserved. -/
def fsExists (st : FsState) (path : String) : Bool :=
  let resolved := posixResolve "/" path
  resolved == "/" || (aget st.index.pathToId resolved).isSome

/-- Modelled from the spec: validateName lives in validation.ts, which
is not under src/.  The spec says only that name legality is validated
eagerly; the model rejects the empty name (path parsing already excludes
separators). -/
def validateName (name : String) : Except FsErr Unit :=
  if name = "" then .error (.EINVALNAME name) else .ok ()

/-- Modelled from the spec: assertUniqueName lives in validation.ts,
which is not under src/.  Spec section 4.4: creation and rename validate
local uniqueness eagerly (excluding the row itself on rename); the model
rejects when an active sibling other than selfId bears the same name,
using the childrenOf bucket of the parent. -/
def assertUniqueName (t : Table) (childrenOf : AList (List String))
    (parentId : Option String) (name : String) (selfId : Option String) :
    Except FsErr Unit :=
  let bucket := (aget childrenOf (parentId.getD ROOT_ID)).getD []
  let clash :=
    (getActiveChildren t bucket).any
      (fun r => r.name == name && some r.id != selfId)
  if clash then .error (.EEXIST name) else .ok ()

/-- The substring after the last slash of an already-normalized path
(the name component of parsePath, yjs-file-system source lines
455-456). -/
def pathBasename (normalized : String) : String :=
  let cs := normalized.toList
  let lastSlash :=
    ((cs.reverse.findIdx? (fun c => c == '/')).map
      (fun j => cs.length - 1 - j)).getD 0
  (cs.drop (lastSlash + 1)).asString

/-- The substring before the last slash of an already-normalized path,
with the empty string replaced by "/" (parsePath, yjs-file-system source
line 457). -/
def pathParent (normalized : String) : String :=
  let cs := normalized.toList
  let lastSlash :=
    ((cs.reverse.findIdx? (fun c => c == '/')).map
      (fun j => cs.length - 1 - j)).getD 0
  if (cs.take lastSlash).asString = "" then "/"
  else (cs.take lastSlash).asString

/-- parsePath (yjs-file-system source, lines 453-462): normalize, split
at the last slash; a parent path of "/" yields the null parent,
otherwise the parent must already be indexed. -/
def parsePath (st : FsState) (path : String) :
    Except FsErr (Option String × String) :=
  let normalized := posixResolve "/" path
  let name := pathBasename normalized
  let parentPath := pathParent normalized
  if parentPath = "/" then .ok (none, name)
  else
    match aget st.index.pathToId parentPath with
    | some pid => .ok (some pid, name)
    | none => .error (.ENOENT parentPath)

/-- Write data through a handle into the pooled document (the transact
block of writeFile, yjs-file-system source lines 189-199): text variant
clears and inserts; rich-text variant parses front matter and updates
both containers. -/
def writeThroughHandle (d : YDoc) (htype : ExtensionCategory)
    (content : String) : YDoc :=
  match htype with
  | .text => { d with text := content }
  | .richtext =>
    let parsed := parseFrontmatter content
    { d with
      fm := updateYMapFromRecord parsed.1
      rich := updateYXmlFragmentFromString parsed.2 }

def poolWriteContent (pool : AList PoolEntry) (fileId : String)
    (htype : ExtensionCategory) (content : String) : AList PoolEntry :=
  match aget pool fileId with
  | some e => aset pool fileId { e with ydoc := writeThroughHandle e.ydoc htype content }
  | none => pool

/-- Steps 4-7 of writeFile (yjs-file-system source, lines 186-208):
acquire the document under the row's stored name, write through the
handle, release, patch size and updatedAt (rebuilding the index), then
refresh the plaintext cache verbatim from the input. -/
def writeFileContent (st : FsState) (id resolved content : String)
    (now : Nat) : Except FsErr FsState := do
  let row ← getRowE st id resolved
  let hp := acquire st.pool id row.name
  let p2 := poolWriteContent hp.2 id hp.1.htype content
  let p3 := release p2 id
  let st1 := { st with pool := p3 }
  let st2 :=
    applyTable st1
      (tableUpdate st1.table id
        { size := some (utf8Size content), updatedAt := some now })
  .ok { st2 with plaintext := aset st2.plaintext id content }

/-- The id writeFile writes to at a given pre-state: the indexed id when
the path already resolves, else the guid the create branch generates. -/
def writtenId (st : FsState) (path : String) : String :=
  match aget st.index.pathToId (posixResolve "/" path) with
  | some id => id
  | none => "g" ++ toString st.nextGuid

/-- writeFile (yjs-file-system source, lines 158-209), data taken as a
string and Date.now() as the explicit now argument.  The create branch
validates the name and local uniqueness, inserts the row (triggering a
rebuild) and falls through to the content write. -/
def writeFile (st : FsState) (path content : String) (now : Nat) :
    Except FsErr FsState :=
  let resolved := posixResolve "/" path
  match aget st.index.pathToId resolved with
  | some id => writeFileContent st id resolved content now
  | none => do
    let pn ← parsePath st resolved
    validateName pn.2
    assertUniqueName st.table st.index.childrenOf pn.1 pn.2 none
    let id := "g" ++ toString st.nextGuid
    let newRow : FileRow :=
      { id := id, name := pn.2, parentId := pn.1, ftype := .file,
        size := utf8Size content, createdAt := now, updatedAt := now,
        trashedAt := none }
    let st1 :=
      applyTable { st with nextGuid := st.nextGuid + 1 } (tableSet st.table newRow)
    writeFileContent st1 id resolved content now

/-- readFile (yjs-file-system source, lines 130-147): cached plaintext
wins; otherwise loadAndCache through the pool and populate the cache. -/
def readFile (st : FsState) (path : String) :
    Except FsErr (String × FsState) := do
  let resolved := posixResolve "/" path
  let id ← resolveId st resolved
  let row ← getRowE st id resolved
  if row.ftype = FType.folder then .error (.EISDIR resolved)
  else
    match aget st.plaintext id with
    | some cached => .ok (cached, st)
    | none =>
      let tp := loadAndCache st.pool id row.name
      .ok (tp.1, { st with pool := tp.2, plaintext := aset st.plaintext id tp.1 })

/-- softDeleteDescendants (yjs-file-system source, lines 464-475) as a
fuelled walk over a captured children list: trash each live child
(triggering a rebuild), evict its plaintext, and recurse into folders
reading the then-current childrenOf, as the source does.  Every step
(next sibling or descent) consumes one structural fuel unit, so a
quadratic budget in the table size covers the whole walk. -/
def softDeleteGo : Nat → FsState → List String → Nat → FsState
  | _, st, [], _ => st
  | 0, st, _, _ => st
  | fuel + 1, st, cid :: rest, now =>
    match tableGet st.table cid with
    | none => softDeleteGo fuel st rest now
    | some row =>
      if row.trashedAt.isSome then softDeleteGo fuel st rest now
      else
        let st1 :=
          applyTable st (tableUpdate st.table cid { trashedAt := some (some now) })
        let st2 := { st1 with plaintext := adel st1.plaintext cid }
        let st3 :=
          if row.ftype = FType.folder then
            softDeleteGo fuel st2 ((aget st2.index.childrenOf cid).getD []) now
          else st2
        softDeleteGo fuel st3 rest now

/-- The unconditional tail of rm (yjs-file-system source, lines
294-301): trash the row (rebuilding the index), evict its plaintext,
and soft-delete the then-current children when the row is a folder and
recursive was requested. -/
def rmCore (st : FsState) (id : String) (row : FileRow) (now : Nat)
    (recursive : Bool) : FsState :=
  let st1 := applyTable st (tableUpdate st.table id { trashedAt := some (some now) })
  let st2 := { st1 with plaintext := adel st1.plaintext id }
  if row.ftype = FType.folder ∧ recursive then
    softDeleteGo ((st2.table.length + 1) * (st2.table.length + 1)) st2
      ((aget st2.index.childrenOf id).getD []) now
  else st2

/-- rm (yjs-file-system source, lines 279-302): missing path errors
unless force; a folder without recursive must have no active children;
then the soft delete of rmCore runs. -/
def rm (st : FsState) (path : String) (recursive force : Bool) (now : Nat) :
    Except FsErr FsState :=
  let resolved := posixResolve "/" path
  match aget st.index.pathToId resolved with
  | none => if force then .ok st else .error (.ENOENT resolved)
  | some id => do
    let row ← getRowE st id resolved
    if row.ftype = FType.folder ∧ recursive = false then
      if 0 < (getActiveChildren st.table
          ((aget st.index.childrenOf id).getD [])).length then
        .error (.ENOTEMPTY resolved)
      else .ok (rmCore st id row now recursive)
    else .ok (rmCore st id row now recursive)

/-- mv (yjs-file-system source, lines 327-368): resolve the source row,
validate the destination name and uniqueness excluding self; when the
file's extension category changes, read the old content first, drop the
plaintext cache, patch the metadata (rebuilding the index) and rewrite
the content at the destination; otherwise patch the metadata only. -/
def mv (st : FsState) (src dest : String) (now : Nat) : Except FsErr FsState := do
  let resolvedSrc := posixResolve "/" src
  let resolvedDest := posixResolve "/" dest
  let id ← resolveId st resolvedSrc
  let row ← getRowE st id resolvedSrc
  let pn ← parsePath st resolvedDest
  validateName pn.2
  assertUniqueName st.table st.index.childrenOf pn.1 pn.2 (some id)
  if row.ftype = FType.file ∧
      getExtensionCategory row.name ≠ getExtensionCategory pn.2 then
    let cs ← readFile st resolvedSrc
    let st2 := { cs.2 with plaintext := adel cs.2.plaintext id }
    let st3 :=
      applyTable st2
        (tableUpdate st2.table id
          { name := some pn.2, parentId := some pn.1, updatedAt := some now })
    writeFile st3 resolvedDest cs.1 now
  else
    .ok
      (applyTable st
        (tableUpdate st.table id
          { name := some pn.2, parentId := some pn.1, updatedAt := some now }))

/-! Derived observations and concrete instances used by the claims. -/

/-- The updatedAt of an id, 0 when the row is missing (the neutral value
of pickLatest's scan). -/
def updA (t : Table) (id : String) : Nat :=
  match tableGet t id with
  | some r => r.updatedAt
  | none => 0

/-- The row fields a metadata-only move must not touch: id, type, size,
createdAt, trashedAt (name, parentId and updatedAt are the metadata a
move and the index repairs may patch). -/
def rowShadow (r : FileRow) : String × FType × Nat × Nat × Option Nat :=
  (r.id, r.ftype, r.size, r.createdAt, r.trashedAt)

/-- n acquires of the same fileId in a row. -/
def acquireN (id nm : String) : Nat → AList PoolEntry → AList PoolEntry
  | 0, p => p
  | n + 1, p => (acquire (acquireN id nm n p) id nm).2

/-- k releases of the same fileId in a row. -/
def releaseN (id : String) : Nat → AList PoolEntry → AList PoolEntry
  | 0, p => p
  | k + 1, p => release (releaseN id k p) id

/-- The refcount a pool holds for an id, 0 when the entry is absent. -/
def refcountOf (p : AList PoolEntry) (id : String) : Nat :=
  match aget p id with
  | some e => e.refcount
  | none => 0

/-- The document's populated variant matches the category expected by
the file name (the no-op situations of healContentType per the spec,
including the fully empty document). -/
def matchesExpectedCategory (d : YDoc) (nm : String) : Prop :=
  (getExtensionCategory nm = ExtensionCategory.richtext ∧ 0 < d.rich.length) ∨
  (getExtensionCategory nm = ExtensionCategory.text ∧ 0 < d.text.length) ∨
  (d.text.length = 0 ∧ d.rich.length = 0)

/-- The chain from an id is acyclic and fully resolvable: chainList
terminates within table-size fuel and visits no id twice. -/
def chainAcyclicB (t : Table) (id : String) : Bool :=
  match chainList t (t.length + 1) (some id) with
  | some l => decide l.Nodup
  | none => false

/-- The row's parent is null or an active row of the table (the
no-orphan condition of spec section 3). -/
def parentActiveB (t : Table) (r : FileRow) : Bool :=
  match r.parentId with
  | none => true
  | some pid =>
    (t.filter (fun x => x.trashedAt.isNone)).any (fun x => x.id == pid)

/-- The destination name component mv validates: mv resolves the
destination and parsePath normalizes it again, so posixResolve is
applied twice, as in the source call chain. -/
def mvDestName (dest : String) : String :=
  pathBasename (posixResolve "/" (posixResolve "/" dest))

/-- A live row helper for the concrete scenarios. -/
def mkRow (id name : String) (parentId : Option String) (ft : FType)
    (c u : Nat) : FileRow :=
  { id := id, name := name, parentId := parentId, ftype := ft,
    size := 0, createdAt := c, updatedAt := u, trashedAt := none }

/-- C1 scenario: a folder containing one file. -/
def c1t : Table :=
  [mkRow "d1" "dir" none FType.folder 1 1,
   mkRow "f1" "file.txt" (some "d1") FType.file 2 2]

def c1st : FsState := initState c1t

/-- C2 counterexample rows: a is a self-cycle (updatedAt 2), d is an
ordinary row whose chain leads into that cycle (updatedAt 1). -/
def c2t : Table :=
  [mkRow "a" "a" (some "a") FType.folder 1 2,
   mkRow "d" "d" (some "a") FType.file 2 1]

/-- C3 counterexample: a chain of exactly 50 nodes, node i named "a"
with parent node i-1. -/
def chainRow (i : Nat) : FileRow :=
  { id := toString i, name := "a",
    parentId := if i = 0 then none else some (toString (i - 1)),
    ftype := FType.folder, size := 0, createdAt := i, updatedAt := i,
    trashedAt := none }

def c3t : Table := (List.range 50).map chainRow

/-- C3 witness table: a two-row chain. -/
def c3wt : Table :=
  [mkRow "wa" "wa" none FType.folder 1 1,
   mkRow "wb" "wb.txt" (some "wa") FType.file 2 2]

/-- C4 scenario: two same-named siblings created at 1000 and 2000. -/
def c4t : Table :=
  [mkRow "a" "foo.txt" none FType.file 1000 1000,
   mkRow "b" "foo.txt" none FType.file 2000 2000]

/-- C5 counterexample: a root folder named d. -/
def c5t : Table := [mkRow "d" "d" none FType.folder 1 1]

def c5st : FsState := initState c5t

/-- writeFile then readFile at the same path, the C5 round trip. -/
def c5seq : Except FsErr String :=
  match writeFile c5st "/d" "payload" 2 with
  | .ok st => (readFile st "/d").map (fun p => p.1)
  | .error e => .error e

/-- The post-write state of the C5 witness run. -/
def c5wpost : FsState :=
  match writeFile (initState []) "/a.txt" "hi" 1 with
  | .ok st => st
  | .error _ => initState []

/-- The C6 witness run: write /index.ts, read it, move it to /index.js. -/
def c6st0 : FsState :=
  match writeFile (initState []) "/index.ts" "export const x = 42;" 1 with
  | .ok st => st
  | .error _ => initState []

def c6st1 : FsState :=
  match readFile c6st0 "/index.ts" with
  | .ok p => p.2
  | .error _ => c6st0

def c6st2 : FsState :=
  match mv c6st1 "/index.ts" "/index.js" 2 with
  | .ok st => st
  | .error _ => c6st1

/-- C7 scenario: write "# H" to /hello.txt, mv it to /hello.md, read it
back. -/
def c7run : Except FsErr String :=
  match writeFile (initState []) "/hello.txt" "# H" 1 with
  | .error e => .error e
  | .ok st1 =>
    match mv st1 "/hello.txt" "/hello.md" 2 with
    | .error e => .error e
    | .ok st2 => (readFile st2 "/hello.md").map (fun p => p.1)

/-- C8 witness pool run: two acquires then two releases from empty. -/
def c8pool2 : AList PoolEntry := acquireN "f" "a.txt" 2 []

/-- C9 witness document: rich-text content under a .md name. -/
def c9doc : YDoc := { text := "", rich := "# Hello", fm := [] }

/-- C10 witness pool: one entry opened under a text name. -/
def c10pool : AList PoolEntry := (acquire [] "f" "a.txt").2

/-! Association list lemmas. -/

theorem aget_aset_self {α : Type} (m : AList α) (k : String) (v : α) :
    aget (aset m k v) k = some v := by
  induction m with
  | nil => simp [aset, aget, List.find?]
  | cons p ps ih =>
    by_cases h : p.1 == k
    · simp [aset, h, aget, List.find?]
    · simp only [aset, h, if_false, Bool.false_eq_true]
      simpa [aget, List.find?, h] using ih

theorem aget_aset_ne {α : Type} (m : AList α) (k k2 : String) (v : α)
    (h : k ≠ k2) : aget (aset m k v) k2 = aget m k2 := by
  induction m with
  | nil =>
    have hk : (k == k2) = false := by simpa using h
    simp [aset, aget, List.find?, hk]
  | cons p ps ih =>
    by_cases hp : p.1 == k
    · have hk2 : (k == k2) = false := by simpa using h
      have hp2 : (p.1 == k2) = false := by
        have : p.1 = k := by simpa using hp
        simpa [this] using h
      simp [aset, hp, aget, List.find?, hk2, hp2]
    · by_cases hq : p.1 == k2
      · simp [aset, hp, aget, List.find?, hq]
      · simp only [aset, hp, if_false, Bool.false_eq_true]
        simpa [aget, List.find?, hq] using ih

theorem aget_adel_self {α : Type} (m : AList α) (k : String) :
    aget (adel m k) k = none := by
  induction m with
  | nil => simp [adel, aget, List.find?]
  | cons p ps ih =>
    by_cases h : p.1 == k
    · simpa [adel, h, aget] using ih
    · have h2 : (p.1 != k) = true := by simpa [bne] using h
      simpa [adel, h2, aget, List.find?, h] using ih

/-! C9: convertContentType with equal categories and healContentType on
an already-matching document are no-ops. -/

/-- C9: convertContentType(doc, X, X) is a no-op for every document and
category, and healContentType(doc, fileName) is a no-op whenever the
populated variant already matches the category expected by fileName,
including the empty document. -/
theorem C9_convert_heal_idempotent :
    (∀ (d : YDoc) (x : ExtensionCategory), convertContentType d x x = d) ∧
    (∀ (d : YDoc) (nm : String), matchesExpectedCategory d nm →
      healContentType d nm = d) := by
  constructor
  · intro d x
    simp [convertContentType]
  · intro d nm h
    unfold healContentType
    cases hc : getExtensionCategory nm with
    | text =>
      have hg : ¬ (d.text.length = 0 ∧ 0 < d.rich.length) := by
        rcases h with ⟨h1, h2⟩ | ⟨h1, h2⟩ | ⟨h1, h2⟩
        · rw [hc] at h1; cases h1
        · omega
        · omega
      rw [if_neg hg]
    | richtext =>
      have hg : ¬ (d.rich.length = 0 ∧ 0 < d.text.length) := by
        rcases h with ⟨h1, h2⟩ | ⟨h1, h2⟩ | ⟨h1, h2⟩
        · omega
        · rw [hc] at h1; cases h1
        · omega
      rw [if_neg hg]

/-- C9 witness: a .md document populated on the rich-text side, and the
empty document, are untouched by healContentType; convertContentType
with equal categories is untouched on a sample document. -/
theorem C9_convert_heal_witness :
    convertContentType c9doc ExtensionCategory.text ExtensionCategory.text =
        c9doc ∧
    healContentType c9doc "readme.md" = c9doc ∧
    healContentType YDoc.empty "empty.md" = YDoc.empty :=
  ⟨C9_convert_heal_idempotent.1 c9doc ExtensionCategory.text,
   C9_convert_heal_idempotent.2 c9doc "readme.md"
     (Or.inl ⟨by decide, by decide⟩),
   C9_convert_heal_idempotent.2 YDoc.empty "empty.md"
     (Or.inr (Or.inr ⟨by decide, by decide⟩))⟩

/-! C10: a pool cache hit ignores the fileName argument. -/

/-- C10: when an entry exists for fileId, acquire returns the existing
handle unchanged regardless of the fileName argument — the variant stays
the one fixed at first open — and the only state change is the refcount
bump: the document is untouched and no self-heal runs. -/
theorem C10_cache_hit_returns_existing_handle
    (p : AList PoolEntry) (id nm : String) (e : PoolEntry)
    (h : aget p id = some e) :
    acquire p id nm = (e.handle, aset p id { e with refcount := e.refcount + 1 }) := by
  simp [acquire, h]

/-- C10 witness: the pool entry opened under "a.txt" keeps its text
handle when re-acquired under "b.md". -/
theorem C10_cache_hit_witness :
    acquire c10pool "f" "b.md" =
      ({ htype := ExtensionCategory.text, fileId := "f" },
        aset c10pool "f"
          { handle := { htype := ExtensionCategory.text, fileId := "f" },
            ydoc := YDoc.empty, refcount := 2, provider := false }) :=
  C10_cache_hit_returns_existing_handle c10pool "f" "b.md"
    { handle := { htype := ExtensionCategory.text, fileId := "f" },
      ydoc := YDoc.empty, refcount := 1, provider := false } (by decide)

/-! C4: CRDT duplicate sibling names are disambiguated by creation
order. -/

/-- C4: with two active rows named foo.txt under the root created at
1000 and 2000, the rebuilt index maps /foo.txt to the earlier row and
/foo (1).txt to the later one. -/
theorem C4_duplicate_names_disambiguated :
    aget (rebuildFix (c4t.length + 1) c4t).2.pathToId "/foo.txt" = some "a" ∧
    aget (rebuildFix (c4t.length + 1) c4t).2.pathToId "/foo (1).txt" = some "b" := by
  decide

/-! C7: mv across categories rewrites the content through the rich-text
variant. -/

/-- C7: after writeFile("/hello.txt", "# H") and
mv("/hello.txt", "/hello.md"), readFile("/hello.md") succeeds and
returns "# H" — content containing "H" with no front-matter block
(the serialized form neither starts with nor contains a "---"
delimiter, the source having had no front matter). -/
theorem C7_txt_to_md_rewrite :
    c7run = .ok "# H" ∧
    ("# H").data.contains 'H' = true ∧
    strStartsWith "# H" "---" = false := by
  decide

/-! C1: recursive rm does not trash the subtree — the synchronous
rebuild orphan-repairs the children to the root first. -/

/-- C1 (code bug): rm("/dir", recursive) on a folder containing one
file succeeds, but the contained file row keeps trashedAt null and
stays reachable via exists at "/file.txt": trashing the folder triggers
the synchronous rebuild, whose orphan repair reparents the still-active
child to the root before softDeleteDescendants reads childrenOf, which
by then holds no bucket for the folder.  The claim (and the repository's
own rm -rf test expecting an empty root listing) requires the file to be
soft-deleted and unreachable. -/
theorem C1_rm_recursive_reparents_instead_of_trashing :
    (rm c1st "/dir" true false 5).map (fun st =>
      ((tableGet st.table "f1").map FileRow.trashedAt,
        fsExists st "/file.txt", fsExists st "/dir/file.txt", fsExists st "/dir"))
      = .ok (some none, true, false, false) := by
  decide

/-! C2 counterexample: the cycle-break branch returns without clearing
the walk's stack, so a later row whose chain meets that stack is also
reparented. -/

/-- C2 counterexample: in c2t the only cycle is the self-loop a
(updatedAt 2); row d (updatedAt 1) merely points into it.  The claim
says exactly a is reparented to root; after rebuild the code has also
set d's parentId to null. -/
theorem C2_counterexample_lead_in_row_reparented :
    (tableGet c2t "d").map FileRow.parentId = some (some "a") ∧
    (tableGet (rebuildFix (c2t.length + 1) c2t).1 "a").map FileRow.parentId =
      some none ∧
    (tableGet (rebuildFix (c2t.length + 1) c2t).1 "d").map FileRow.parentId =
      some none := by
  decide

/-! C2 amended: the walk that detects a cycle reparents the first
latest-updatedAt member of the detected slice. -/

theorem pickStep_invariant (t : Table) (ids : List String) :
    ∀ (acc : String × Nat), acc.2 ≤ updA t acc.1 →
      ((ids.foldl (pickStep t) acc).1 = acc.1 ∨
        (ids.foldl (pickStep t) acc).1 ∈ ids) ∧
      acc.2 ≤ (ids.foldl (pickStep t) acc).2 ∧
      (ids.foldl (pickStep t) acc).2 ≤ updA t (ids.foldl (pickStep t) acc).1 ∧
      ∀ c ∈ ids, updA t c ≤ (ids.foldl (pickStep t) acc).2 := by
  induction ids with
  | nil =>
    intro acc h
    exact ⟨Or.inl rfl, le_refl _, h, by simp⟩
  | cons c cs ih =>
    intro acc h
    have hstep :
        (pickStep t acc c).2 ≤ updA t (pickStep t acc c).1 ∧
        acc.2 ≤ (pickStep t acc c).2 ∧
        updA t c ≤ (pickStep t acc c).2 ∧
        ((pickStep t acc c).1 = acc.1 ∨ (pickStep t acc c).1 = c) := by
      cases htg : tableGet t c with
      | none =>
        simp only [pickStep, htg]
        exact ⟨h, le_refl _, by simp [updA, htg], by simp⟩
      | some row =>
        by_cases hlt : acc.2 < row.updatedAt
        · simp only [pickStep, htg, if_pos hlt]
          exact ⟨by simp [updA, htg], Nat.le_of_lt hlt, by simp [updA, htg],
            by simp⟩
        · simp only [pickStep, htg, if_neg hlt]
          refine ⟨h, le_refl _, ?_, by simp⟩
          simp only [updA, htg]
          omega
    have hrec := ih (pickStep t acc c) hstep.1
    rw [List.foldl_cons]
    refine ⟨?_, ?_, hrec.2.2.1, ?_⟩
    · rcases hrec.1 with h1 | h1
      · rcases hstep.2.2.2 with h2 | h2
        · exact Or.inl (h1.trans h2)
        · exact Or.inr (by rw [h1, h2]; exact List.mem_cons_self c cs)
      · exact Or.inr (List.mem_cons_of_mem c h1)
    · exact hstep.2.1.trans hrec.2.1
    · intro x hx
      rcases List.mem_cons.mp hx with hx | hx
      · rw [hx]; exact hstep.2.2.1.trans hrec.2.1
      · exact hrec.2.2.2 x hx

theorem pickLatest_mem (ids : List String) (t : Table) (h : ids ≠ []) :
    pickLatest ids t ∈ ids := by
  unfold pickLatest
  have hinv := pickStep_invariant t ids (ids.headD "", 0) (Nat.zero_le _)
  rcases hinv.1 with h1 | h1
  · rw [h1]
    cases ids with
    | nil => exact absurd rfl h
    | cons x xs => exact List.mem_cons_self x xs
  · exact h1

theorem pickLatest_max (ids : List String) (t : Table) :
    ∀ c ∈ ids, updA t c ≤ updA t (pickLatest ids t) := by
  intro c hc
  unfold pickLatest
  have hinv := pickStep_invariant t ids (ids.headD "", 0) (Nat.zero_le _)
  exact (hinv.2.2.2 c hc).trans hinv.2.2.1

/-- C2 amended: whenever a detectCycle walk fires its in-stack branch
(recorded as the repaired slice), the single table write it performs
reparents pickLatest of that slice to the root, and pickLatest is a
member of the slice carrying its greatest updatedAt (the first such
member on ties); the table was not modified before the write.  The
original claim's uniqueness across the whole rebuild fails because the
cycle branch skips the cleanup loop (see the counterexample). -/
theorem C2_cycle_break_reparents_latest_updated :
    ∀ (fuel : Nat) (t : Table) (cur : Option String)
      (visited inStack path : List String) (cyc : List String),
      (detectCycleGo t fuel cur visited inStack path).2.2.2 = some cyc →
      cyc ≠ [] →
      (detectCycleGo t fuel cur visited inStack path).1 =
        tableUpdate t (pickLatest cyc t) { parentId := some none } ∧
      pickLatest cyc t ∈ cyc ∧
      ∀ c ∈ cyc, updA t c ≤ updA t (pickLatest cyc t) := by
  intro fuel
  induction fuel with
  | zero =>
    intro t cur visited inStack path cyc hrep _
    cases cur <;> simp [detectCycleGo] at hrep
  | succ fuel ih =>
    intro t cur visited inStack path cyc hrep hne
    cases cur with
    | none => simp [detectCycleGo] at hrep
    | some c =>
      by_cases hv : c ∈ visited
      · simp [detectCycleGo, hv] at hrep
      · by_cases hs : c ∈ inStack
        · have hcyc : sliceFrom path c = cyc := by
            have h2 := hrep
            simp [detectCycleGo, hv, hs] at h2
            exact h2
          subst hcyc
          refine ⟨?_, pickLatest_mem _ t hne, pickLatest_max _ t⟩
          simp [detectCycleGo, hv, hs]
        · cases htg : tableGet t c with
          | none => simp [detectCycleGo, hv, hs, htg] at hrep
          | some row =>
            have hgo :
                detectCycleGo t (fuel + 1) (some c) visited inStack path =
                  detectCycleGo t fuel row.parentId visited
                    (inStack ++ [c]) (path ++ [c]) := by
              simp [detectCycleGo, hv, hs, htg]
            rw [hgo] at hrep ⊢
            exact ih t row.parentId visited (inStack ++ [c]) (path ++ [c])
              cyc hrep hne

/-- C2 witness: the walk from "a" over c2t detects the self-cycle ["a"]
and reparents its latest-updated member. -/
theorem C2_cycle_break_witness :
    (detectCycleGo c2t 3 (some "a") [] [] []).1 =
      tableUpdate c2t (pickLatest ["a"] c2t) { parentId := some none } ∧
    pickLatest ["a"] c2t ∈ ["a"] := by
  have h := C2_cycle_break_reparents_latest_updated 3 c2t (some "a") [] [] []
    ["a"] (by decide) (by decide)
  exact ⟨h.1, h.2.1⟩

/-! C3 counterexample: a cycle-free chain of exactly 50 nodes is
excluded from the index. -/

/-- C3 counterexample: row 49 of the 50-node chain c3t has an acyclic
fully-resolvable chain of length 50 (within the claim's "length at most
50" bound), yet after rebuild it is absent from idToPath, while row 48
(chain length 49) is present: the walk excludes chains of 50 visited
nodes, so the inclusive bound is 49, not 50. -/
theorem C3_counterexample_depth_50_excluded :
    (chainList c3t (c3t.length + 1) (some "49")).map List.length = some 50 ∧
    chainAcyclicB c3t "49" = true ∧
    aget (rebuildFix (c3t.length + 1) c3t).2.idToPath "49" = none ∧
    (aget (rebuildFix (c3t.length + 1) c3t).2.idToPath "48").isSome = true := by
  decide

/-! C8: the pool's refcount lifecycle. -/

theorem acquire_refcount (q : AList PoolEntry) (id nm : String) :
    refcountOf (acquire q id nm).2 id = refcountOf q id + 1 := by
  cases hq : aget q id with
  | some e =>
    simp only [acquire, hq, refcountOf, aget_aset_self]
  | none =>
    simp only [acquire, hq, refcountOf, aget_aset_self]

theorem acquireN_entry (p : AList PoolEntry) (id nm : String)
    (habs : aget p id = none) :
    ∀ n : Nat, 0 < n →
      ∃ e, aget (acquireN id nm n p) id = some e ∧ e.refcount = n := by
  intro n
  induction n with
  | zero => intro h; cases h
  | succ m ih =>
    intro _
    by_cases hm0 : 0 < m
    · obtain ⟨e, he, hrc⟩ := ih hm0
      refine ⟨{ e with refcount := e.refcount + 1 }, ?_, by simp [hrc]⟩
      have hstep :
          acquireN id nm (m + 1) p = (acquire (acquireN id nm m p) id nm).2 :=
        rfl
      rw [hstep]
      simp only [acquire, he]
      exact aget_aset_self _ _ _
    · have hm : m = 0 := by omega
      subst hm
      refine ⟨{ handle := openDocument id nm,
                ydoc := healContentType YDoc.empty nm, refcount := 1,
                provider := false }, ?_, rfl⟩
      have hstep : acquireN id nm 1 p = (acquire p id nm).2 := rfl
      rw [hstep]
      simp only [acquire, habs]
      exact aget_aset_self _ _ _

theorem release_decrement (q : AList PoolEntry) (id : String) (e : PoolEntry)
    (hq : aget q id = some e) (h1 : 1 < e.refcount) :
    aget (release q id) id = some { e with refcount := e.refcount - 1 } := by
  simp only [release, hq, if_neg (by omega : ¬ e.refcount ≤ 1), aget_aset_self]

theorem release_evict (q : AList PoolEntry) (id : String) (e : PoolEntry)
    (hq : aget q id = some e) (h1 : e.refcount ≤ 1) :
    aget (release q id) id = none := by
  simp only [release, hq, if_pos h1, aget_adel_self]

theorem releaseN_char (id : String) (n : Nat) (Q : AList PoolEntry)
    (e0 : PoolEntry) (hq : aget Q id = some e0) (hrc : e0.refcount = n)
    (hn : 0 < n) :
    ∀ k : Nat, k ≤ n →
      (k < n → ∃ e, aget (releaseN id k Q) id = some e ∧ e.refcount = n - k) ∧
      (k = n → aget (releaseN id k Q) id = none) := by
  intro k
  induction k with
  | zero =>
    intro _
    exact ⟨fun _ => ⟨e0, hq, by omega⟩, fun h0 => by omega⟩
  | succ m ih =>
    intro hle
    have hm := ih (by omega)
    obtain ⟨e, he, herc⟩ := hm.1 (by omega)
    constructor
    · intro hlt
      refine ⟨{ e with refcount := e.refcount - 1 }, ?_, by simp; omega⟩
      simp only [releaseN]
      exact release_decrement _ id e he (by omega)
    · intro heq
      simp only [releaseN]
      exact release_evict _ id e he (by omega)

/-- C8: every acquire call (cache hit included) increments the entry's
refcount; after n acquires of a previously absent fileId, k matched
releases leave refcount n - k, and the n-th release evicts the entry,
so peek returns absent. -/
theorem C8_pool_refcount_lifecycle (p : AList PoolEntry) (id nm : String)
    (n : Nat) (habs : aget p id = none) (hn : 0 < n) :
    (∀ q : AList PoolEntry,
      refcountOf (acquire q id nm).2 id = refcountOf q id + 1) ∧
    (∀ k : Nat, k ≤ n →
      refcountOf (releaseN id k (acquireN id nm n p)) id = n - k) ∧
    peek (releaseN id n (acquireN id nm n p)) id = none := by
  obtain ⟨e0, he0, hrc0⟩ := acquireN_entry p id nm habs n hn
  have hchar := releaseN_char id n (acquireN id nm n p) e0 he0 hrc0 hn
  refine ⟨fun q => acquire_refcount q id nm, ?_, ?_⟩
  · intro k hk
    by_cases hlt : k < n
    · obtain ⟨e, he, herc⟩ := (hchar k hk).1 hlt
      simp [refcountOf, he, herc]
    · have hkn : k = n := by omega
      have h0 := (hchar k hk).2 hkn
      simp only [refcountOf, h0]
      omega
  · have := (hchar n (le_refl n)).2 rfl
    simp [peek, this]

/-- C8 witness: two acquires of "f" from the empty pool followed by two
releases leave the pool without the entry. -/
theorem C8_pool_refcount_witness :
    refcountOf (acquire [] "f" "a.txt").2 "f" = refcountOf ([] : AList PoolEntry) "f" + 1 ∧
    refcountOf (releaseN "f" 1 (acquireN "f" "a.txt" 2 [])) "f" = 2 - 1 ∧
    peek (releaseN "f" 2 (acquireN "f" "a.txt" 2 [])) "f" = none := by
  have h := C8_pool_refcount_lifecycle [] "f" "a.txt" 2 (by decide) (by decide)
  exact ⟨h.1 [], h.2.1 1 (by decide), h.2.2⟩

/-! C5 counterexample: writeFile silently accepts an existing folder
path, after which readFile fails with EISDIR. -/

/-- C5 counterexample: "/d" names a folder (name not in the rich-text
category); writeFile("/d", "payload") succeeds, and the subsequent
readFile("/d") returns EISDIR instead of the written string. -/
theorem C5_counterexample_folder_write :
    (writeFile c5st "/d" "payload" 2).toOption.isSome = true ∧
    strEndsWith "d" ".md" = false ∧
    c5seq = .error (.EISDIR "/d") := by
  decide

/-! C5 amended: a successful write whose target row still resolves as a
file at the path reads back verbatim. -/

theorem bindError {α β : Type} (e : FsErr) (f : α → Except FsErr β) :
    (Except.error e >>= f : Except FsErr β) = Except.error e := rfl

theorem bindOk {α β : Type} (x : α) (f : α → Except FsErr β) :
    (Except.ok x >>= f : Except FsErr β) = f x := rfl

theorem writeFileContent_plaintext (st : FsState) (id resolved content : String)
    (now : Nat) (st' : FsState)
    (h : writeFileContent st id resolved content now = .ok st') :
    aget st'.plaintext id = some content := by
  cases hrow : getRowE st id resolved with
  | error e =>
    simp only [writeFileContent, hrow, bindError] at h
    exact Except.noConfusion h
  | ok row =>
    simp only [writeFileContent, hrow, bindOk] at h
    have h2 := Except.ok.inj h
    rw [← h2]
    exact aget_aset_self _ _ _

theorem writeFile_ok_plaintext (st : FsState) (path s : String) (now : Nat)
    (st' : FsState) (hw : writeFile st path s now = .ok st') :
    aget st'.plaintext (writtenId st path) = some s := by
  simp only [writeFile] at hw
  unfold writtenId
  cases hpid : aget st.index.pathToId (posixResolve "/" path) with
  | some id =>
    simp only [hpid] at hw
    exact writeFileContent_plaintext _ _ _ _ _ _ hw
  | none =>
    simp only [hpid] at hw
    cases hpp : parsePath st (posixResolve "/" path) with
    | error e =>
      simp only [hpp, bindError] at hw
      exact Except.noConfusion hw
    | ok pn =>
      simp only [hpp, bindOk] at hw
      cases hvn : validateName pn.2 with
      | error e =>
        simp only [hvn, bindError] at hw
        exact Except.noConfusion hw
      | ok u =>
        simp only [hvn, bindOk] at hw
        cases hun : assertUniqueName st.table st.index.childrenOf pn.1 pn.2
            none with
        | error e =>
          simp only [hun, bindError] at hw
          exact Except.noConfusion hw
        | ok u2 =>
          simp only [hun, bindOk] at hw
          exact writeFileContent_plaintext _ _ _ _ _ _ hw

/-- C5 amended: for every state, path and content where writeFile
succeeds, if afterwards the path still resolves in the index to the row
the write targeted (writeFile also "succeeds" against an existing folder
path, and a row whose chain reaches the 50-visit bound drops out of the
index) and that row is a file, then readFile returns exactly the written
string — the plaintext cache is refreshed verbatim from the input, so
this holds regardless of extension category. -/
theorem C5_write_read_roundtrip (st : FsState) (path s : String) (now : Nat)
    (st' : FsState)
    (hw : writeFile st path s now = .ok st')
    (hres : resolveId st' (posixResolve "/" path) = .ok (writtenId st path))
    (hty : (tableGet st'.table (writtenId st path)).map FileRow.ftype =
      some FType.file) :
    readFile st' path = .ok (s, st') := by
  have hpl := writeFile_ok_plaintext st path s now st' hw
  cases htg : tableGet st'.table (writtenId st path) with
  | none => rw [htg] at hty; cases hty
  | some row =>
    rw [htg] at hty
    have hft : row.ftype = FType.file := by
      simpa using hty
    have hfolder : ¬ row.ftype = FType.folder := by
      rw [hft]; intro hh; cases hh
    simp only [readFile, hres, bindOk, getRowE, htg, if_neg hfolder, hpl]

/-- C5 witness: writing "hi" to /a.txt in the empty workspace and
reading it back returns "hi". -/
theorem C5_write_read_roundtrip_witness :
    readFile c5wpost "/a.txt" = .ok ("hi", c5wpost) :=
  C5_write_read_roundtrip (initState []) "/a.txt" "hi" 1 c5wpost (by decide)
    (by decide) (by decide)

/-! C6: a same-category mv touches only row metadata and no content. -/

theorem tableGet_map (t : Table) (f : FileRow → FileRow)
    (hf : ∀ r, (f r).id = r.id) (i : String) :
    tableGet (t.map f) i = (tableGet t i).map f := by
  induction t with
  | nil => rfl
  | cons r rs ih =>
    have hid : ((f r).id == i) = (r.id == i) := by rw [hf r]
    cases h : r.id == i with
    | true => simp [tableGet, List.find?, hid, h]
    | false =>
      simpa [tableGet, List.find?, hid, h] using ih

theorem rowShadow_applyPatch (r : FileRow) (p : Patch)
    (hs : p.size = none) (ht : p.trashedAt = none) :
    rowShadow (applyPatch r p) = rowShadow r := by
  simp [rowShadow, applyPatch, hs, ht]

theorem shadow_tableUpdate (t : Table) (id : String) (p : Patch)
    (hs : p.size = none) (ht : p.trashedAt = none) (i : String) :
    (tableGet (tableUpdate t id p) i).map rowShadow =
      (tableGet t i).map rowShadow := by
  unfold tableUpdate
  rw [tableGet_map]
  · cases tableGet t i with
    | none => rfl
    | some r =>
      by_cases h : r.id = id
      · simp [h, rowShadow_applyPatch r p hs ht]
      · simp [h]
  · intro r
    by_cases h : r.id = id
    · simp [h, applyPatch]
    · simp [h]

theorem detectCycleGo_table (t : Table) :
    ∀ (fuel : Nat) (cur : Option String) (v s pa : List String),
      (detectCycleGo t fuel cur v s pa).1 = t ∨
      ∃ x, (detectCycleGo t fuel cur v s pa).1 =
        tableUpdate t x { parentId := some none } := by
  intro fuel
  induction fuel with
  | zero =>
    intro cur v s pa
    cases cur <;> simp [detectCycleGo]
  | succ fuel ih =>
    intro cur v s pa
    cases cur with
    | none => simp [detectCycleGo]
    | some c =>
      by_cases hv : c ∈ v
      · simp [detectCycleGo, hv]
      · by_cases hs2 : c ∈ s
        · right
          exact ⟨pickLatest (sliceFrom pa c) t, by simp [detectCycleGo, hv, hs2]⟩
        · cases htg : tableGet t c with
          | none => simp [detectCycleGo, hv, hs2, htg]
          | some row =>
            have hgo :
                detectCycleGo t (fuel + 1) (some c) v s pa =
                  detectCycleGo t fuel row.parentId v (s ++ [c]) (pa ++ [c]) := by
              simp [detectCycleGo, hv, hs2, htg]
            rw [hgo]
            exact ih _ _ _ _

theorem shadow_detectCycleGo (t : Table) (fuel : Nat) (cur : Option String)
    (v s pa : List String) (i : String) :
    (tableGet (detectCycleGo t fuel cur v s pa).1 i).map rowShadow =
      (tableGet t i).map rowShadow := by
  rcases detectCycleGo_table t fuel cur v s pa with h | ⟨x, h⟩
  · rw [h]
  · rw [h]
    exact shadow_tableUpdate t x _ rfl rfl i

theorem shadow_foldCirc (i : String) :
    ∀ (rows : List FileRow) (acc : Table × List String × List String),
      (tableGet (rows.foldl fixCircStep acc).1 i).map rowShadow =
        (tableGet acc.1 i).map rowShadow := by
  intro rows
  induction rows with
  | nil => intro acc; rfl
  | cons r rs ih =>
    intro acc
    rw [List.foldl_cons, ih]
    unfold fixCircStep
    by_cases h : acc.2.1.contains r.id
    · rw [if_pos h]
    · rw [if_neg h]
      exact shadow_detectCycleGo acc.1 _ _ _ _ _ i

theorem shadow_foldOrph (ids : List String) (i : String) :
    ∀ (rows : List FileRow) (acc : Table × AList (List String)),
      (tableGet (rows.foldl (fixOrphanStep ids) acc).1 i).map rowShadow =
        (tableGet acc.1 i).map rowShadow := by
  intro rows
  induction rows with
  | nil => intro acc; rfl
  | cons r rs ih =>
    intro acc
    rw [List.foldl_cons, ih]
    unfold fixOrphanStep
    split
    · rfl
    · split
      · rfl
      · exact shadow_tableUpdate acc.1 r.id _ rfl rfl i

theorem shadow_rebuildPass (t : Table) (i : String) :
    (tableGet (rebuildPass t).1 i).map rowShadow =
      (tableGet t i).map rowShadow := by
  show (tableGet (rebuildPass t).1 i).map rowShadow = _
  have h1 : (rebuildPass t).1 =
      (fixOrphans (fixCircularReferences t
          (t.filter (fun r => r.trashedAt.isNone)))
        (t.filter (fun r => r.trashedAt.isNone))
        ((t.filter (fun r => r.trashedAt.isNone)).foldl
          (fun co row =>
            aset co (row.parentId.getD ROOT_ID)
              ((aget co (row.parentId.getD ROOT_ID)).getD [] ++ [row.id]))
          ([] : AList (List String)))).1 := rfl
  rw [h1]
  unfold fixOrphans
  rw [shadow_foldOrph]
  unfold fixCircularReferences
  rw [shadow_foldCirc]

theorem shadow_rebuildFix (fuel : Nat) :
    ∀ (t : Table) (i : String),
      (tableGet (rebuildFix fuel t).1 i).map rowShadow =
        (tableGet t i).map rowShadow := by
  induction fuel with
  | zero => intro t i; exact shadow_rebuildPass t i
  | succ fuel ih =>
    intro t i
    simp only [rebuildFix]
    by_cases h : (rebuildPass t).1 = t
    · rw [if_pos h]
      exact shadow_rebuildPass t i
    · rw [if_neg h]
      rw [ih ((rebuildPass t).1) i]
      exact shadow_rebuildPass t i

theorem ftype_of_not_folder (ft : FType) (h : ¬ ft = FType.folder) :
    ft = FType.file := by
  cases ft
  · rfl
  · exact absurd rfl h

theorem resolveId_congr (st st2 : FsState) (p : String)
    (h : st2.index = st.index) : resolveId st2 p = resolveId st p := by
  unfold resolveId
  rw [h]

theorem parsePath_name (st : FsState) (p : String)
    (pn : Option String × String) (h : parsePath st p = .ok pn) :
    pn.2 = pathBasename (posixResolve "/" p) := by
  simp only [parsePath] at h
  by_cases hpp : pathParent (posixResolve "/" p) = "/"
  · rw [if_pos hpp] at h
    rw [← Except.ok.inj h]
  · rw [if_neg hpp] at h
    cases hg : aget st.index.pathToId (pathParent (posixResolve "/" p)) with
    | some pid =>
      rw [hg] at h
      rw [← Except.ok.inj h]
    | none =>
      rw [hg] at h
      exact Except.noConfusion h

theorem readFile_ok (st : FsState) (p orig : String) (st1 : FsState)
    (h : readFile st p = .ok (orig, st1)) :
    st1.table = st.table ∧ st1.index = st.index ∧
    ∃ id r, resolveId st (posixResolve "/" p) = .ok id ∧
      tableGet st.table id = some r ∧ r.ftype = FType.file ∧
      aget st1.plaintext id = some orig := by
  cases hres : resolveId st (posixResolve "/" p) with
  | error e =>
    simp only [readFile, hres, bindError] at h
    exact Except.noConfusion h
  | ok id =>
    simp only [readFile, hres, bindOk] at h
    cases htg : tableGet st.table id with
    | none =>
      simp only [getRowE, htg, bindError] at h
      exact Except.noConfusion h
    | some r =>
      simp only [getRowE, htg, bindOk] at h
      by_cases hf : r.ftype = FType.folder
      · rw [if_pos hf] at h
        exact Except.noConfusion h
      · rw [if_neg hf] at h
        have hfile := ftype_of_not_folder r.ftype hf
        cases hc : aget st.plaintext id with
        | some cached =>
          rw [hc] at h
          have h2 := Except.ok.inj h
          rw [Prod.mk.injEq] at h2
          obtain ⟨horig, hst⟩ := h2
          refine ⟨by rw [← hst], by rw [← hst], id, r, rfl, htg, hfile, ?_⟩
          rw [← hst, hc, horig]
        | none =>
          rw [hc] at h
          have h2 := Except.ok.inj h
          rw [Prod.mk.injEq] at h2
          obtain ⟨horig, hst⟩ := h2
          refine ⟨by rw [← hst], by rw [← hst], id, r, rfl, htg, hfile, ?_⟩
          rw [← hst]
          show aget (aset st.plaintext id (loadAndCache st.pool id r.name).1) id =
            some orig
          rw [aget_aset_self, horig]

set_option maxHeartbeats 1000000 in
/-- C6: when mv's source row and destination name share an extension
category, the move performs only the metadata patch: the pool and the
plaintext cache are untouched, every row keeps its id, type, size,
createdAt and trashedAt, and when the destination path resolves to the
moved row, readFile returns the original text byte-for-byte (no codec
round trip occurs). -/
theorem C6_same_category_mv_frame (st : FsState) (src dest : String)
    (now : Nat) (orig : String) (st1 st2 : FsState) (id : String)
    (row : FileRow)
    (hr : readFile st src = .ok (orig, st1))
    (hid : resolveId st1 (posixResolve "/" src) = .ok id)
    (hrow : tableGet st1.table id = some row)
    (hcat : getExtensionCategory row.name =
      getExtensionCategory (mvDestName dest))
    (hmv : mv st1 src dest now = .ok st2) :
    st2.pool = st1.pool ∧
    st2.plaintext = st1.plaintext ∧
    (∀ i, (tableGet st2.table i).map rowShadow =
      (tableGet st1.table i).map rowShadow) ∧
    (resolveId st2 (posixResolve "/" dest) = .ok id →
      readFile st2 dest = .ok (orig, st2)) := by
  obtain ⟨hta, hix, id0, r0, hres0, hrow0, hft0, hcache⟩ := readFile_ok st src orig st1 hr
  have hid0 : id0 = id := by
    have hcg := resolveId_congr st st1 (posixResolve "/" src) hix
    rw [← hcg] at hres0
    exact Except.ok.inj (hres0.symm.trans hid)
  rw [hid0] at hrow0 hcache
  have hr0row : r0 = row := by
    rw [hta] at hrow
    exact Option.some.inj (hrow0.symm.trans hrow)
  subst hr0row
  simp only [mv, hid, bindOk, getRowE, hrow, bindOk] at hmv
  cases hpp : parsePath st1 (posixResolve "/" dest) with
  | error e =>
    rw [hpp, bindError] at hmv
    exact Except.noConfusion hmv
  | ok pn =>
    rw [hpp, bindOk] at hmv
    cases hvn : validateName pn.2 with
    | error e =>
      rw [hvn, bindError] at hmv
      exact Except.noConfusion hmv
    | ok u =>
      rw [hvn, bindOk] at hmv
      cases hun : assertUniqueName st1.table st1.index.childrenOf pn.1 pn.2
          (some id) with
      | error e =>
        rw [hun, bindError] at hmv
        exact Except.noConfusion hmv
      | ok u2 =>
        rw [hun, bindOk] at hmv
        have hnc : ¬ (r0.ftype = FType.file ∧
            getExtensionCategory r0.name ≠ getExtensionCategory pn.2) := by
          intro hcontra
          rw [parsePath_name st1 (posixResolve "/" dest) pn hpp] at hcontra
          unfold mvDestName at hcat
          exact hcontra.2 hcat
        rw [if_neg hnc] at hmv
        have hst2 := Except.ok.inj hmv
        rw [← hst2]
        refine ⟨rfl, rfl, ?_, ?_⟩
        · intro i
          show (tableGet (rebuildFix _ _).1 i).map rowShadow = _
          rw [shadow_rebuildFix]
          exact shadow_tableUpdate st1.table id _ rfl rfl i
        · intro hid2
          rw [hst2] at hid2 ⊢
          have hsh : (tableGet st2.table id).map rowShadow =
              (tableGet st1.table id).map rowShadow := by
            rw [← hst2]
            show (tableGet (rebuildFix _ _).1 id).map rowShadow = _
            rw [shadow_rebuildFix]
            exact shadow_tableUpdate st1.table id _ rfl rfl id
          rw [hrow] at hsh
          cases htg2 : tableGet st2.table id with
          | none => rw [htg2] at hsh; exact Option.noConfusion hsh
          | some r2 =>
            rw [htg2] at hsh
            have hshval : rowShadow r2 = rowShadow r0 := Option.some.inj hsh
            have hft2 : r2.ftype = r0.ftype :=
              congrArg (fun q => q.2.1) hshval
            have hfolder2 : ¬ r2.ftype = FType.folder := by
              rw [hft2, hft0]
              intro hh
              exact FType.noConfusion hh
            have hpl2 : aget st2.plaintext id = some orig := by
              have hplx : st2.plaintext = st1.plaintext := by
                rw [← hst2]
                rfl
              rw [hplx]
              exact hcache
            simp only [readFile, hid2, bindOk, getRowE, htg2, bindOk,
              if_neg hfolder2, hpl2]

/-! C3 amended: membership in the rebuilt index is exactly the
strictly-under-50-node chain condition. -/

theorem filter_not_mem_self (l : List String) :
    l.filter (fun i => !decide (i ∈ l)) = [] := by
  rw [List.filter_eq_nil]
  intro a ha
  simp [ha]

theorem chainList_cons_inv (t : Table) (fc : Nat) (c : String)
    (l : List String) (h : chainList t fc (some c) = some l) :
    ∃ fc2 row l2, fc = fc2 + 1 ∧ tableGet t c = some row ∧
      chainList t fc2 row.parentId = some l2 ∧ l = c :: l2 := by
  cases fc with
  | zero => simp [chainList] at h
  | succ fc2 =>
    cases htg : tableGet t c with
    | none => simp [chainList, htg] at h
    | some row =>
      simp only [chainList, htg] at h
      cases hcl : chainList t fc2 row.parentId with
      | none => rw [hcl] at h; simp at h
      | some l2 =>
        rw [hcl] at h
        simp only [Option.map_some'] at h
        exact ⟨fc2, row, l2, rfl, rfl, hcl, (Option.some.inj h).symm⟩

theorem chainList_mem_isSome (t : Table) :
    ∀ (l : List String) (fc : Nat) (cur : Option String),
      chainList t fc cur = some l → ∀ x ∈ l, (tableGet t x).isSome := by
  intro l
  induction l with
  | nil => intro fc cur h x hx; cases hx
  | cons c l2 ih =>
    intro fc cur h x hx
    cases cur with
    | none => simp [chainList] at h
    | some c0 =>
      obtain ⟨fc2, row, l3, hfc, htg, hcl, hl⟩ := chainList_cons_inv t fc c0 _ h
      obtain ⟨hc0, hl3⟩ := List.cons.inj hl
      rcases List.mem_cons.mp hx with hx | hx
      · rw [hx, hc0, htg]; rfl
      · exact ih fc2 row.parentId (by rw [← hl3] at hcl; exact hcl) x hx

theorem mem_id_of_get_isSome (t : Table) (x : String)
    (h : (tableGet t x).isSome) : x ∈ t.map FileRow.id := by
  cases htg : tableGet t x with
  | none => rw [htg] at h; cases h
  | some r =>
    have htg2 : t.find? (fun r => r.id == x) = some r := htg
    have hmem := List.mem_of_find?_eq_some htg2
    have hpred := List.find?_some htg2
    have hid : r.id = x := by simpa using hpred
    rw [← hid]
    exact List.mem_map_of_mem FileRow.id hmem

theorem chainList_length_le (t : Table) (l : List String) (fc : Nat)
    (cur : Option String) (h : chainList t fc cur = some l)
    (hnd : l.Nodup) : l.length ≤ t.length := by
  have hsub : l ⊆ t.map FileRow.id := by
    intro x hx
    exact mem_id_of_get_isSome t x (chainList_mem_isSome t l fc cur h x hx)
  have hle := (List.subperm_of_subset hnd hsub).length_le
  simpa using hle

theorem detect_safe (t : Table) :
    ∀ (l : List String) (fc : Nat) (cur : Option String)
      (visited path : List String) (fuel : Nat),
      chainList t fc cur = some l → l.Nodup →
      (∀ x ∈ l, x ∉ path) → l.length < fuel →
      ∃ p2, detectCycleGo t fuel cur visited path path =
        (t, visited ++ p2, [], none) := by
  intro l
  induction l with
  | nil =>
    intro fc cur visited path fuel h hnd hdisj hfuel
    cases cur with
    | none =>
      refine ⟨path, ?_⟩
      cases fuel <;>
        simp [detectCycleGo, filter_not_mem_self]
    | some c =>
      obtain ⟨fc2, row, l2, hfc, htg, hcl, hl⟩ := chainList_cons_inv t fc c _ h
      exact List.noConfusion hl
  | cons c l2 ih =>
    intro fc cur visited path fuel h hnd hdisj hfuel
    cases cur with
    | none => simp [chainList] at h
    | some c0 =>
      obtain ⟨fc2, row, l3, hfc, htg, hcl, hl⟩ := chainList_cons_inv t fc c0 _ h
      obtain ⟨hc0, hl3⟩ := List.cons.inj hl
      subst hc0
      rw [← hl3] at hcl
      cases fuel with
      | zero => omega
      | succ fuel2 =>
        by_cases hv : c ∈ visited
        · refine ⟨path, ?_⟩
          simp [detectCycleGo, hv, filter_not_mem_self]
        · have hs : ¬ c ∈ path := hdisj c (List.mem_cons_self c l2)
          have hgo : detectCycleGo t (fuel2 + 1) (some c) visited path path =
              detectCycleGo t fuel2 row.parentId visited
                (path ++ [c]) (path ++ [c]) := by
            simp [detectCycleGo, hv, hs, htg]
          rw [hgo]
          apply ih fc2 row.parentId visited (path ++ [c]) fuel2 hcl
            (List.Nodup.of_cons hnd)
          · intro x hx
            rw [List.mem_append]
            intro hmem
            rcases hmem with hmem | hmem
            · exact hdisj x (List.mem_cons_of_mem c hx) hmem
            · have hxc : x = c := by simpa using hmem
              rw [hxc] at hx
              exact (List.nodup_cons.mp hnd).1 hx
          · have := hfuel
            simp only [List.length_cons] at this
            omega

theorem fixCircStep_eq (t : Table) (v : List String) (r : FileRow) :
    fixCircStep (t, v, ([] : List String)) r =
      if v.contains r.id then (t, v, [])
      else
        ((detectCycleGo t (t.length + 1) (some r.id) v [] []).1,
         (detectCycleGo t (t.length + 1) (some r.id) v [] []).2.1,
         (detectCycleGo t (t.length + 1) (some r.id) v [] []).2.2.1) := rfl

theorem fixCircular_identity (t : Table) (rows : List FileRow)
    (h : ∀ r ∈ rows, ∃ l, chainList t (t.length + 1) (some r.id) = some l ∧
      l.Nodup ∧ l.length < t.length + 1) :
    fixCircularReferences t rows = t := by
  unfold fixCircularReferences
  suffices hfold : ∀ (sub : List FileRow) (v : List String),
      (∀ r ∈ sub, ∃ l, chainList t (t.length + 1) (some r.id) = some l ∧
        l.Nodup ∧ l.length < t.length + 1) →
      ∃ v2, sub.foldl fixCircStep (t, v, ([] : List String)) = (t, v2, []) by
    obtain ⟨v2, hv2⟩ := hfold rows [] h
    rw [hv2]
  intro sub
  induction sub with
  | nil => intro v _; exact ⟨v, rfl⟩
  | cons r rs ih =>
    intro v hsub
    rw [List.foldl_cons]
    have hstep : ∃ v2, fixCircStep (t, v, ([] : List String)) r = (t, v2, []) := by
      rw [fixCircStep_eq]
      by_cases hc : v.contains r.id = true
      · exact ⟨v, by rw [if_pos hc]⟩
      · obtain ⟨l, hcl, hnd, hlen⟩ := hsub r (List.mem_cons_self r rs)
        obtain ⟨p2, hp2⟩ := detect_safe t l (t.length + 1) (some r.id) v []
          (t.length + 1) hcl hnd (by intro x _ hx; cases hx) hlen
        refine ⟨v ++ p2, ?_⟩
        rw [if_neg hc, hp2]
    obtain ⟨v2, hv2⟩ := hstep
    rw [hv2]
    exact ih v2 (fun r2 hr2 => hsub r2 (List.mem_cons_of_mem r hr2))

theorem fixOrphans_identity (t : Table) (rows : List FileRow)
    (co : AList (List String)) (ids : List String)
    (h : ∀ r ∈ rows, ∀ pid, r.parentId = some pid → ids.contains pid = true) :
    rows.foldl (fixOrphanStep ids) (t, co) = (t, co) := by
  induction rows with
  | nil => rfl
  | cons r rs ih =>
    rw [List.foldl_cons]
    have hstep : fixOrphanStep ids (t, co) r = (t, co) := by
      unfold fixOrphanStep
      cases hp : r.parentId with
      | none => rfl
      | some pid =>
        have hc := h r (List.mem_cons_self r rs) pid hp
        have hmem : pid ∈ ids := by simpa using hc
        simp [hmem]
    rw [hstep]
    exact ih (fun r2 hr2 pid hp => h r2 (List.mem_cons_of_mem r hr2) pid hp)

theorem cpGo_le (t : Table) (dn : AList String) :
    ∀ (l : List String) (fc : Nat) (cur : Option String),
      chainList t fc cur = some l →
      ∀ (fuel depth : Nat) (parts : List String), l.length ≤ fuel →
      ∃ parts2, computePathGo t dn fuel cur depth parts =
        some (depth + l.length, parts2) := by
  intro l
  induction l with
  | nil =>
    intro fc cur h fuel depth parts _
    cases cur with
    | none =>
      refine ⟨parts, ?_⟩
      cases fuel <;> simp [computePathGo]
    | some c =>
      obtain ⟨fc2, row, l2, _, _, _, hl⟩ := chainList_cons_inv t fc c _ h
      exact List.noConfusion hl
  | cons c l2 ih =>
    intro fc cur h fuel depth parts hle
    cases cur with
    | none => simp [chainList] at h
    | some c0 =>
      obtain ⟨fc2, row, l3, hfc, htg, hcl, hl⟩ := chainList_cons_inv t fc c0 _ h
      obtain ⟨hc0, hl3⟩ := List.cons.inj hl
      subst hc0
      rw [← hl3] at hcl
      cases fuel with
      | zero => simp at hle
      | succ fuel2 =>
        have hle2 : l2.length ≤ fuel2 := by
          simp only [List.length_cons] at hle; omega
        obtain ⟨parts2, heq⟩ := ih fc2 row.parentId hcl fuel2 (depth + 1)
          (((aget dn c).getD row.name) :: parts) hle2
        refine ⟨parts2, ?_⟩
        have harith : depth + 1 + l2.length = depth + (c :: l2).length := by
          simp only [List.length_cons]; omega
        rw [harith] at heq
        simpa [computePathGo, htg] using heq

theorem cpGo_lt (t : Table) (dn : AList String) :
    ∀ (fuel : Nat) (l : List String) (fc : Nat) (cur : Option String),
      chainList t fc cur = some l → fuel < l.length →
      ∀ (depth : Nat) (parts : List String),
      ∃ parts2, computePathGo t dn fuel cur depth parts =
        some (depth + fuel, parts2) := by
  intro fuel
  induction fuel with
  | zero =>
    intro l fc cur h hlt depth parts
    cases cur with
    | none =>
      simp only [chainList] at h
      rw [← Option.some.inj h] at hlt
      simp at hlt
    | some c => exact ⟨parts, by simp [computePathGo]⟩
  | succ f2 ih =>
    intro l fc cur h hlt depth parts
    cases cur with
    | none =>
      simp only [chainList] at h
      rw [← Option.some.inj h] at hlt
      simp at hlt
    | some c =>
      obtain ⟨fc2, row, l2, hfc, htg, hcl, hl⟩ := chainList_cons_inv t fc c _ h
      have hlt2 : f2 < l2.length := by
        rw [hl] at hlt
        simp only [List.length_cons] at hlt
        omega
      obtain ⟨parts2, heq⟩ := ih l2 fc2 row.parentId hcl hlt2 (depth + 1)
        (((aget dn c).getD row.name) :: parts)
      refine ⟨parts2, ?_⟩
      have harith : depth + 1 + f2 = depth + (f2 + 1) := by omega
      rw [harith] at heq
      simpa [computePathGo, htg] using heq

theorem computePath_isSome_iff (t : Table) (dn : AList String) (id : String)
    (l : List String) (h : chainList t (t.length + 1) (some id) = some l) :
    ((computePath id t dn).isSome = true) ↔ l.length ≤ 49 := by
  constructor
  · intro hs
    by_contra hgt
    push_neg at hgt
    by_cases hle : l.length ≤ MAX_DEPTH
    · obtain ⟨parts2, heq⟩ := cpGo_le t dn l _ _ h MAX_DEPTH 0 [] hle
      unfold computePath at hs
      rw [heq] at hs
      have hcond : MAX_DEPTH ≤ 0 + l.length := by
        simp only [MAX_DEPTH]; omega
      simp [hcond] at hs
      simp only [MAX_DEPTH] at hs
      omega
    · obtain ⟨parts2, heq⟩ := cpGo_lt t dn MAX_DEPTH l _ _ h (by omega) 0 []
      unfold computePath at hs
      rw [heq] at hs
      have hcond : MAX_DEPTH ≤ 0 + MAX_DEPTH := by omega
      simp [hcond] at hs
  · intro hle
    obtain ⟨parts2, heq⟩ := cpGo_le t dn l _ _ h MAX_DEPTH 0 []
      (by simp only [MAX_DEPTH]; omega)
    unfold computePath
    rw [heq]
    have hcond : ¬ MAX_DEPTH ≤ 0 + l.length := by
      simp only [MAX_DEPTH]; omega
    simp [hcond]
    simp only [MAX_DEPTH]
    omega

theorem buildPaths_fold_keep_path (t : Table) (dn : AList String) :
    ∀ (rows : List FileRow) (maps : AList String × AList String) (p : String),
      (aget maps.1 p).isSome = true →
      (aget (rows.foldl (buildPathStep t dn) maps).1 p).isSome = true := by
  intro rows
  induction rows with
  | nil => intro maps p h; exact h
  | cons r rs ih =>
    intro maps p h
    rw [List.foldl_cons]
    apply ih
    unfold buildPathStep
    cases hcp : computePath r.id t dn with
    | none => exact h
    | some q =>
      by_cases hq : q = p
      · subst hq
        show (aget (aset maps.1 q r.id) q).isSome = true
        rw [aget_aset_self]
        rfl
      · show (aget (aset maps.1 q r.id) p).isSome = true
        rw [aget_aset_ne maps.1 q p r.id hq]
        exact h

theorem buildPaths_fold_pathToId (t : Table) (dn : AList String) :
    ∀ (rows : List FileRow) (maps : AList String × AList String)
      (r : FileRow) (p : String), r ∈ rows →
      computePath r.id t dn = some p →
      (aget (rows.foldl (buildPathStep t dn) maps).1 p).isSome = true := by
  intro rows
  induction rows with
  | nil => intro maps r p hmem; cases hmem
  | cons r0 rs ih =>
    intro maps r p hmem hcp
    rw [List.foldl_cons]
    rcases List.mem_cons.mp hmem with heq | hmem2
    · subst heq
      apply buildPaths_fold_keep_path
      unfold buildPathStep
      rw [hcp]
      show (aget (aset maps.1 p r.id) p).isSome = true
      rw [aget_aset_self]
      rfl
    · exact ih _ r p hmem2 hcp

theorem buildPaths_fold_frame (t : Table) (dn : AList String) :
    ∀ (rows : List FileRow) (maps : AList String × AList String) (k : String),
      k ∉ rows.map FileRow.id →
      aget (rows.foldl (buildPathStep t dn) maps).2 k = aget maps.2 k := by
  intro rows
  induction rows with
  | nil => intro maps k _; rfl
  | cons r rs ih =>
    intro maps k hk
    rw [List.map_cons] at hk
    rw [List.foldl_cons, ih _ k (fun h => hk (List.mem_cons_of_mem _ h))]
    unfold buildPathStep
    cases hcp : computePath r.id t dn with
    | none => rfl
    | some q =>
      have hne : r.id ≠ k := by
        intro h
        rw [← h] at hk
        exact hk (List.mem_cons_self _ _)
      exact aget_aset_ne maps.2 r.id k q hne

theorem buildPaths_fold_idToPath (t : Table) (dn : AList String) :
    ∀ (rows : List FileRow) (maps : AList String × AList String) (r : FileRow),
      r ∈ rows → (rows.map FileRow.id).Nodup →
      aget (rows.foldl (buildPathStep t dn) maps).2 r.id =
        match computePath r.id t dn with
        | some p => some p
        | none => aget maps.2 r.id := by
  intro rows
  induction rows with
  | nil => intro maps r hmem; cases hmem
  | cons r0 rs ih =>
    intro maps r hmem hnd
    rw [List.map_cons, List.nodup_cons] at hnd
    rcases List.mem_cons.mp hmem with heq | hmem2
    · subst heq
      rw [List.foldl_cons, buildPaths_fold_frame t dn rs _ r.id hnd.1]
      unfold buildPathStep
      cases hcp : computePath r.id t dn with
      | none => rfl
      | some p =>
        show aget (aset maps.2 r.id p) r.id = some p
        exact aget_aset_self maps.2 r.id p
    · rw [List.foldl_cons, ih (buildPathStep t dn maps r0) r hmem2 hnd.2]
      have hne : r0.id ≠ r.id := by
        intro h
        apply hnd.1
        rw [h]
        exact List.mem_map_of_mem FileRow.id hmem2
      cases hcp : computePath r.id t dn with
      | none =>
        show aget (buildPathStep t dn maps r0).2 r.id = aget maps.2 r.id
        unfold buildPathStep
        cases hcp0 : computePath r0.id t dn with
        | none => rfl
        | some q =>
          show aget (aset maps.2 r0.id q) r.id = aget maps.2 r.id
          exact aget_aset_ne maps.2 r0.id r.id q hne
      | some p => rfl

theorem buildPaths_idToPath_eq (t : Table) (co : AList (List String))
    (p0 i0 : AList String) (r : FileRow)
    (hmem : r ∈ t.filter (fun r => r.trashedAt.isNone))
    (hnd : ((t.filter (fun r => r.trashedAt.isNone)).map FileRow.id).Nodup)
    (hseed : aget i0 r.id = none) :
    aget (buildPaths t co p0 i0).2 r.id =
      computePath r.id t (allDisplayNames t co) := by
  unfold buildPaths
  rw [buildPaths_fold_idToPath t _ _ (p0, i0) r hmem hnd]
  cases computePath r.id t (allDisplayNames t co) with
  | some p => rfl
  | none => exact hseed

theorem buildPaths_pathToId_isSome (t : Table) (co : AList (List String))
    (p0 i0 : AList String) (r : FileRow) (p : String)
    (hmem : r ∈ t.filter (fun r => r.trashedAt.isNone))
    (hcp : computePath r.id t (allDisplayNames t co) = some p) :
    (aget (buildPaths t co p0 i0).1 p).isSome = true := by
  unfold buildPaths
  exact buildPaths_fold_pathToId t _ _ (p0, i0) r p hmem hcp

theorem rebuildPass_safe (t : Table)
    (hcl : ∀ r ∈ t.filter (fun r => r.trashedAt.isNone),
      ∃ l, chainList t (t.length + 1) (some r.id) = some l ∧ l.Nodup ∧
        l.length < t.length + 1)
    (horph : ∀ r ∈ t.filter (fun r => r.trashedAt.isNone), ∀ pid,
      r.parentId = some pid →
      ((t.filter (fun r => r.trashedAt.isNone)).map
        (fun r => r.id)).contains pid = true) :
    rebuildPass t =
      (t, { pathToId :=
              (buildPaths t (childrenOf0 t) [("/", ROOT_ID)] [(ROOT_ID, "/")]).1,
            idToPath :=
              (buildPaths t (childrenOf0 t) [("/", ROOT_ID)] [(ROOT_ID, "/")]).2,
            childrenOf := childrenOf0 t }) := by
  simp only [rebuildPass]
  rw [fixCircular_identity t (t.filter (fun r => r.trashedAt.isNone)) hcl]
  simp only [fixOrphans]
  rw [fixOrphans_identity t (t.filter (fun r => r.trashedAt.isNone)) _
    ((t.filter (fun r => r.trashedAt.isNone)).map (fun r => r.id)) horph]
  rfl

set_option maxHeartbeats 1000000 in
/-- C3 (amended): on a table whose rows never use the synthetic root
id, have pairwise-distinct ids, and whose active rows all have acyclic
parent chains ending at present parents (so the rebuild performs no
repair writes), the rebuild leaves the table unchanged, and an active
row is present in idToPath exactly when its parent chain visits at most
49 rows — a chain of exactly 50 rows is excluded from the index without
an error, because computePath checks depth >= MAX_DEPTH after the walk;
every indexed id's path is in turn a key of pathToId. -/
theorem C3_index_membership_depth_bound (t : Table)
    (hroot : ∀ r ∈ t, r.id ≠ ROOT_ID)
    (hids : (t.map FileRow.id).Nodup)
    (hch : ∀ r ∈ t, r.trashedAt = none → chainAcyclicB t r.id = true)
    (horph : ∀ r ∈ t, r.trashedAt = none → parentActiveB t r = true) :
    (rebuildFix (t.length + 1) t).1 = t ∧
    ∀ r ∈ t, r.trashedAt = none → ∀ l,
      chainList t (t.length + 1) (some r.id) = some l →
      (((aget (rebuildFix (t.length + 1) t).2.idToPath r.id).isSome = true) ↔
        l.length ≤ 49) ∧
      ∀ p, aget (rebuildFix (t.length + 1) t).2.idToPath r.id = some p →
        (aget (rebuildFix (t.length + 1) t).2.pathToId p).isSome = true := by
  have hmemAct : ∀ r ∈ t.filter (fun r => r.trashedAt.isNone),
      r ∈ t ∧ r.trashedAt = none := by
    intro r hr
    rw [List.mem_filter] at hr
    exact ⟨hr.1, Option.isNone_iff_eq_none.mp hr.2⟩
  have hcl : ∀ r ∈ t.filter (fun r => r.trashedAt.isNone),
      ∃ l, chainList t (t.length + 1) (some r.id) = some l ∧ l.Nodup ∧
        l.length < t.length + 1 := by
    intro r hr
    obtain ⟨hrt, hract⟩ := hmemAct r hr
    have hb := hch r hrt hract
    unfold chainAcyclicB at hb
    cases hcll : chainList t (t.length + 1) (some r.id) with
    | none => rw [hcll] at hb; cases hb
    | some l =>
      rw [hcll] at hb
      have hnd : l.Nodup := of_decide_eq_true hb
      exact ⟨l, rfl, hnd,
        Nat.lt_succ_of_le (chainList_length_le t l _ _ hcll hnd)⟩
  have horph2 : ∀ r ∈ t.filter (fun r => r.trashedAt.isNone), ∀ pid,
      r.parentId = some pid →
      ((t.filter (fun r => r.trashedAt.isNone)).map
        (fun r => r.id)).contains pid = true := by
    intro r hr pid hpid
    obtain ⟨hrt, hract⟩ := hmemAct r hr
    have hb := horph r hrt hract
    unfold parentActiveB at hb
    rw [hpid] at hb
    rw [List.any_eq_true] at hb
    obtain ⟨x, hx, hbeq⟩ := hb
    have hx2 : pid ∈ (t.filter (fun r => r.trashedAt.isNone)).map
        (fun r => r.id) := by
      rw [List.mem_map]
      exact ⟨x, hx, by simpa using hbeq⟩
    simpa using hx2
  have hpass := rebuildPass_safe t hcl horph2
  have hfix : rebuildFix (t.length + 1) t =
      (t, { pathToId :=
              (buildPaths t (childrenOf0 t) [("/", ROOT_ID)] [(ROOT_ID, "/")]).1,
            idToPath :=
              (buildPaths t (childrenOf0 t) [("/", ROOT_ID)] [(ROOT_ID, "/")]).2,
            childrenOf := childrenOf0 t }) := by
    simp [rebuildFix, hpass]
  have hnd2 : ((t.filter (fun r => r.trashedAt.isNone)).map FileRow.id).Nodup :=
    List.Nodup.sublist (List.Sublist.map _ (List.filter_sublist t)) hids
  refine ⟨by rw [hfix], ?_⟩
  intro r hrt hract l hchain
  have hrf : r ∈ t.filter (fun r => r.trashedAt.isNone) := by
    rw [List.mem_filter]
    exact ⟨hrt, by rw [hract]; rfl⟩
  have hseed : aget ([(ROOT_ID, "/")] : AList String) r.id = none := by
    have hne : (ROOT_ID == r.id) = false := by
      simpa using Ne.symm (hroot r hrt)
    simp [aget, List.find?, hne]
  have heq := buildPaths_idToPath_eq t (childrenOf0 t) [("/", ROOT_ID)]
    [(ROOT_ID, "/")] r hrf hnd2 hseed
  rw [hfix]
  constructor
  · show (aget (buildPaths t (childrenOf0 t) [("/", ROOT_ID)]
      [(ROOT_ID, "/")]).2 r.id).isSome = true ↔ l.length ≤ 49
    rw [heq]
    exact computePath_isSome_iff t _ r.id l hchain
  · intro p hp
    have hp2 : aget (buildPaths t (childrenOf0 t) [("/", ROOT_ID)]
        [(ROOT_ID, "/")]).2 r.id = some p := hp
    rw [heq] at hp2
    show (aget (buildPaths t (childrenOf0 t) [("/", ROOT_ID)]
      [(ROOT_ID, "/")]).1 p).isSome = true
    exact buildPaths_pathToId_isSome t (childrenOf0 t) _ _ r p hrf hp2

/-- C3 amended witness: on the two-row chain wa then wb the rebuild is
the identity and wb, whose chain visits 2 rows, is indexed. -/
theorem C3_index_membership_depth_bound_witness :
    (aget (rebuildFix (c3wt.length + 1) c3wt).2.idToPath "wb").isSome = true := by
  have h := C3_index_membership_depth_bound c3wt (by decide) (by decide)
    (by decide) (by decide)
  have h2 := (h.2 (mkRow "wb" "wb.txt" (some "wa") FType.file 2 2)
    (by decide) (by decide) ["wb", "wa"] (by decide)).1
  exact h2.mpr (by decide)

/-- C6 witness: mv("/index.ts", "/index.js") leaves pool and cache
untouched and the file reads back byte-for-byte. -/
theorem C6_same_category_mv_witness :
    c6st2.pool = c6st1.pool ∧
    c6st2.plaintext = c6st1.plaintext ∧
    readFile c6st2 "/index.js" = .ok ("export const x = 42;", c6st2) := by
  have h := C6_same_category_mv_frame c6st0 "/index.ts" "/index.js" 2
    "export const x = 42;" c6st1 c6st2 "g0"
    { id := "g0", name := "index.ts", parentId := none, ftype := FType.file,
      size := 20, createdAt := 1, updatedAt := 1, trashedAt := none }
    (by decide) (by decide) (by decide) (by decide) (by decide)
  exact ⟨h.1, h.2.1, h.2.2.2 (by decide)⟩

end Spec2Proof
